import Mathlib

/-!
Verification development for the deadlock-simulation lock engine
(`deadlock_simulation.py`).

The core of the program is the class `LockManager` together with the
`Resource` records it owns and the per-transaction fields it reads
(`ts`, `held`, `aborted`).  We give a shallow embedding of that core:

* `Resource` mirrors the Python `Resource` (`locked_by`, `queue`); the
  condition variable is not data, it is modelled by the step relation
  below (any waiter may re-check at any time).
* `Txn` mirrors the per-transaction state the lock manager touches:
  `ts` (creation timestamp used as abort priority), `held` (list of
  resource keys currently owned), `aborted` (the victim flag), plus a
  `status` field recording the control point of the transaction's
  thread (idle, or blocked inside `acquire`'s wait loop on a given
  key).  `status` is not a Python attribute; it is the program counter
  of the thread, made explicit so that the interleaving semantics can
  be stated.
* `LMState` is the whole mutable state: the resource table, the
  transaction table, and the global counters (`deadlock_count`,
  `abort_count`, and the number of samples appended to `wait_times`;
  the actual float durations are wall-clock time and are abstracted to
  the count of appends).

Each Python critical section (the code executed under `res.cond`
between two waits) becomes one atomic step:

* `acquire` — the entry section of `LockManager.acquire`: the
  free fast path, the already-mine no-op, or enqueue + synchronous
  `_detect_and_resolve`.
* `acquireRecheck` — one iteration of the wait loop of
  `LockManager.acquire` (abort check, grant check, or spurious wake).
* `release` — `LockManager.release`.
* `abortTxn`, `detect_and_resolve`, `dfsAux`, `buildAdj`,
  `buildNodes`, `pyMax` — `LockManager._abort` and
  `LockManager._detect_and_resolve` with its inner `dfs`.

Python's `set` iteration order is unspecified; `buildNodes` fixes the
first-occurrence order (all properties proved below are independent of
this order).  The recursion of `dfs` terminates in Python because
`visited` grows; here `dfsAux` carries explicit fuel, consumed on each
node entry and each neighbour step, and `detect_and_resolve` supplies
fuel ample for the finite graph.  All proved properties hold for every
fuel value.
-/

namespace DeadlockSim

/-- Control point of a transaction's thread: running outside the wait
loop, or blocked inside `acquire`'s wait loop on the given key. -/
inductive TStatus where
  | idle : TStatus
  | waiting (rid : String) : TStatus
deriving DecidableEq, Repr

/-- Mirror of the Python `Resource`: `locked_by` is the owning
transaction (if any), `queue` the FIFO list of waiting transactions. -/
structure Resource where
  locked_by : Option Nat
  queue : List Nat
deriving DecidableEq, Repr

/-- The per-transaction state read and written by the lock manager. -/
structure Txn where
  ts : Nat
  held : List String
  aborted : Bool
  status : TStatus
deriving DecidableEq, Repr

/-- Global state: resource table, transaction table, metrics.
`keys` and `tids` list the resource keys and transaction ids in the
system (the Python dict keys and the set of transaction objects). -/
structure LMState where
  keys : List String
  tids : List Nat
  resources : String → Resource
  txns : Nat → Txn
  deadlock_count : Nat
  abort_count : Nat
  wait_times : Nat

/-- Mirror of Python `max(cycle, key=lambda tr: tr.ts)`: scan keeping
the first element attaining the maximal `ts` (a later element replaces
the current best only on a strictly greater key).  Returns `0` on `[]`
(Python would raise there; the caller guards with a non-empty test). -/
def pyMax (ts : Nat → Nat) : List Nat → Nat
  | [] => 0
  | x :: xs => xs.foldl (fun best y => if ts best < ts y then y else best) x

/-- First loop of `LockManager._abort`: for every resource key in a
snapshot of the victim's `held` list, clear that resource's ownership,
remove the key from the victim's `held`, and notify that resource's
waiters.  Returns the new state and the list of notified keys. -/
def abortHeldLoop (v : Nat) : List String → LMState → LMState × List String
  | [], s => (s, [])
  | k :: rest, s =>
      let s' : LMState :=
        { s with
          resources := Function.update s.resources k
            { s.resources k with locked_by := none },
          txns := Function.update s.txns v
            { s.txns v with held := (s.txns v).held.erase k } }
      let r := abortHeldLoop v rest s'
      (r.1, k :: r.2)

/-- Second loop of `LockManager._abort`: for every resource whose
queue contains the victim as a waiter, remove it from the queue and
notify that resource's waiters. -/
def abortQueueLoop (v : Nat) : List String → LMState → LMState × List String
  | [], s => (s, [])
  | k :: rest, s =>
      if v ∈ (s.resources k).queue then
        let s' : LMState :=
          { s with
            resources := Function.update s.resources k
              { s.resources k with queue := (s.resources k).queue.erase v } }
        let r := abortQueueLoop v rest s'
        (r.1, k :: r.2)
      else abortQueueLoop v rest s

/-- Mirror of `LockManager._abort`: bump `abort_count`, set the
victim's abort flag, then run the two cleanup loops.  Returns the new
state and the keys on which `notify_all` was invoked. -/
def abortTxn (v : Nat) (s : LMState) : LMState × List String :=
  let s0 : LMState :=
    { s with
      abort_count := s.abort_count + 1,
      txns := Function.update s.txns v { s.txns v with aborted := true } }
  let p1 := abortHeldLoop v ((s0.txns v).held) s0
  let p2 := abortQueueLoop v p1.1.keys p1.1
  (p2.1, p1.2 ++ p2.2)

/-- Insert a node keeping first-occurrence order (the embedding's
fixed iteration order for the Python set `all_t`). -/
def addNode (t : Nat) (ns : List Nat) : List Nat :=
  if t ∈ ns then ns else ns ++ [t]

/-- Mirror of the `all_t` collection in `_detect_and_resolve`: every
current owner and every queued waiter, over all resources. -/
def buildNodes (s : LMState) : List Nat :=
  s.keys.foldl
    (fun ns k =>
      let r := s.resources k
      let ns1 := match r.locked_by with
        | some o => addNode o ns
        | none => ns
      r.queue.foldl (fun a w => addNode w a) ns1)
    []

/-- Edge contribution of one resource to the wait-for graph: if the
resource has an owner, each queued waiter gets an edge to that owner
(`graph[w].append(owner)`); a free resource contributes nothing. -/
def addEdges (res : Resource) (adj : Nat → List Nat) : Nat → List Nat :=
  match res.locked_by with
  | some o => res.queue.foldl (fun a w => Function.update a w (a w ++ [o])) adj
  | none => adj

/-- Mirror of the adjacency construction in `_detect_and_resolve`:
accumulate the edge contributions of all resources. -/
def buildAdj (s : LMState) : Nat → List Nat :=
  s.keys.foldl (fun adj k => addEdges (s.resources k) adj) (fun _ => [])

/-- Mirror of the inner `dfs` of `_detect_and_resolve`.  The `Sum`
argument is the control point: `inl v` is a call `dfs(v)` (add `v` to
`visited` and to the path `stack`, then walk its neighbours), `inr
work` is the neighbour loop with `work` still to process.  A neighbour
already on the path yields the current path as the reported cycle
(Python's `return list(stack)`); a visited neighbour off the path is
skipped; an unvisited neighbour is recursed into, threading the
updated `visited`.  Fuel only bounds the recursion depth; Python's
recursion terminates because `visited` grows, and the caller passes
ample fuel. -/
def dfsAux (adj : Nat → List Nat) :
    Nat → Sum Nat (List Nat) → List Nat → List Nat → Option (List Nat) × List Nat
  | 0, _, visited, _ => (none, visited)
  | fuel + 1, Sum.inl v, visited, stack =>
      dfsAux adj fuel (Sum.inr (adj v)) (v :: visited) (v :: stack)
  | _ + 1, Sum.inr [], visited, _ => (none, visited)
  | fuel + 1, Sum.inr (nb :: rest), visited, stack =>
      if nb ∉ visited then
        match dfsAux adj fuel (Sum.inl nb) visited stack with
        | (some cyc, visited') => (some cyc, visited')
        | (none, visited') => dfsAux adj fuel (Sum.inr rest) visited' stack
      else if nb ∈ stack then (some stack, visited)
      else dfsAux adj fuel (Sum.inr rest) visited stack

/-- Mirror of the `for t in graph:` loop of `_detect_and_resolve`:
run the DFS from every not-yet-visited node; on the first reported
(non-empty) cycle pick the victim by `pyMax` on `ts`, bump
`deadlock_count`, abort the victim and return at once.  Returns the
new state and, when a cycle was resolved, the cycle and the victim. -/
def detectLoop (adj : Nat → List Nat) (fuel : Nat) :
    List Nat → List Nat → LMState → LMState × Option (List Nat × Nat)
  | [], _, s => (s, none)
  | t :: rest, visited, s =>
      if t ∈ visited then detectLoop adj fuel rest visited s
      else
        match dfsAux adj fuel (Sum.inl t) visited [] with
        | (some cyc, visited') =>
            if cyc = [] then detectLoop adj fuel rest visited' s
            else
              let v := pyMax (fun u => (s.txns u).ts) cyc
              ((abortTxn v { s with deadlock_count := s.deadlock_count + 1 }).1,
               some (cyc, v))
        | (none, visited') => detectLoop adj fuel rest visited' s

/-- Mirror of `LockManager._detect_and_resolve`: build the wait-for
graph and scan for a cycle.  The fuel is ample for the finite graph
(one unit per node entry plus one per neighbour edge step, per DFS). -/
def detect_and_resolve (s : LMState) : LMState × Option (List Nat × Nat) :=
  let nodes := buildNodes s
  let adj := buildAdj s
  let fuel := nodes.length + (nodes.map (fun v => (adj v).length)).sum + 1
  detectLoop adj fuel nodes [] s

/-- Mirror of the entry section of `LockManager.acquire` (the code run
under `res.cond` before the first wait): free fast path, already-mine
no-op, or append to the wait queue followed by the synchronous
detection pass.  In the enqueue case the caller's control point moves
to `waiting k` (it is about to block in the wait loop). -/
def acquire (t : Nat) (k : String) (s : LMState) : LMState :=
  let res := s.resources k
  if res.locked_by = none then
    { s with
      resources := Function.update s.resources k { res with locked_by := some t },
      txns := Function.update s.txns t
        { s.txns t with held := (s.txns t).held ++ [k] } }
  else if res.locked_by = some t then s
  else
    let s1 : LMState :=
      { s with
        resources := Function.update s.resources k { res with queue := res.queue ++ [t] },
        txns := Function.update s.txns t { s.txns t with status := TStatus.waiting k } }
    (detect_and_resolve s1).1

/-- Outcome of one iteration of `acquire`'s wait loop. -/
inductive WaitOutcome where
  | aborted : WaitOutcome
  | granted : WaitOutcome
  | again : WaitOutcome
deriving DecidableEq, Repr

/-- Mirror of one iteration of the wait loop of `LockManager.acquire`:
if the caller's abort flag is set, clear it and fail (the
`AbortException` propagating out of `acquire`); else if the resource
is free and the caller heads the queue, pop it, take ownership, record
the wait-time sample and return; otherwise wait again. -/
def acquireRecheck (t : Nat) (k : String) (s : LMState) : LMState × WaitOutcome :=
  let tx := s.txns t
  if tx.aborted then
    ({ s with
       txns := Function.update s.txns t
         { tx with aborted := false, status := TStatus.idle } },
     WaitOutcome.aborted)
  else
    let res := s.resources k
    if res.locked_by = none ∧ res.queue.head? = some t then
      ({ s with
         resources := Function.update s.resources k
           { res with locked_by := some t, queue := res.queue.tail },
         txns := Function.update s.txns t
           { tx with held := tx.held ++ [k], status := TStatus.idle },
         wait_times := s.wait_times + 1 },
       WaitOutcome.granted)
    else (s, WaitOutcome.again)

/-- Mirror of `LockManager.release`: if the caller owns the resource,
clear ownership, remove the key from `held` and notify the resource's
waiters; otherwise do nothing.  Returns the notified keys. -/
def release (t : Nat) (k : String) (s : LMState) : LMState × List String :=
  let res := s.resources k
  if res.locked_by = some t then
    ({ s with
       resources := Function.update s.resources k { res with locked_by := none },
       txns := Function.update s.txns t
         { s.txns t with held := (s.txns t).held.erase k } },
     [k])
  else (s, [])

/-- Initial state: every resource free with an empty queue, every
transaction idle with nothing held and a clear abort flag, all
counters zero (`LockManager.__init__` plus freshly created
transactions). -/
def initState (keys : List String) (tids : List Nat) (ts : Nat → Nat) : LMState :=
  { keys := keys
    tids := tids
    resources := fun _ => { locked_by := none, queue := [] }
    txns := fun i => { ts := ts i, held := [], aborted := false, status := TStatus.idle }
    deadlock_count := 0
    abort_count := 0
    wait_times := 0 }

/-- Interleaving semantics: at any moment one transaction executes one
atomic critical section.  An idle transaction may call `acquire` or
`release` on any existing key; a transaction blocked in the wait loop
may run one re-check iteration (condition-variable wake-ups are
nondeterministic, so every interleaving of re-checks is included). -/
inductive Step : LMState → LMState → Prop where
  | acquireStep (s : LMState) (t : Nat) (k : String)
      (ht : t ∈ s.tids) (hk : k ∈ s.keys)
      (hs : (s.txns t).status = TStatus.idle) :
      Step s (acquire t k s)
  | recheckStep (s : LMState) (t : Nat) (k : String)
      (ht : t ∈ s.tids) (hk : k ∈ s.keys)
      (hs : (s.txns t).status = TStatus.waiting k) :
      Step s (acquireRecheck t k s).1
  | releaseStep (s : LMState) (t : Nat) (k : String)
      (ht : t ∈ s.tids) (hk : k ∈ s.keys)
      (hs : (s.txns t).status = TStatus.idle) :
      Step s (release t k s).1

/-- Reachable lock-manager states: an initial state (with distinct
resource keys, as Python dict keys are) followed by any finite
interleaving of atomic steps. -/
inductive Reachable : LMState → Prop where
  | init (keys : List String) (tids : List Nat) (ts : Nat → Nat)
      (hkeys : keys.Nodup) : Reachable (initState keys tids ts)
  | step {s s' : LMState} : Reachable s → Step s s' → Reachable s'

/-! ### Basic lemmas about `pyMax`, `List.erase` folds and chains -/

/-- The fold underlying `pyMax` yields the seed or a list element. -/
lemma pyMax_foldl_mem (ts : Nat → Nat) :
    ∀ (xs : List Nat) (b : Nat),
      xs.foldl (fun best y => if ts best < ts y then y else best) b ∈ b :: xs := by
  intro xs
  induction xs with
  | nil => intro b; simp
  | cons y ys ih =>
    intro b
    rw [List.foldl_cons]
    have h := ih (if ts b < ts y then y else b)
    rcases List.mem_cons.mp h with h1 | h1
    · rw [h1]
      by_cases hc : ts b < ts y
      · simp [hc]
      · simp [hc]
    · exact List.mem_cons_of_mem _ (List.mem_cons_of_mem _ h1)

/-- The fold underlying `pyMax` dominates the seed and every element. -/
lemma pyMax_foldl_ge (ts : Nat → Nat) :
    ∀ (xs : List Nat) (b : Nat),
      ts b ≤ ts (xs.foldl (fun best y => if ts best < ts y then y else best) b) ∧
      ∀ u ∈ xs, ts u ≤ ts (xs.foldl (fun best y => if ts best < ts y then y else best) b) := by
  intro xs
  induction xs with
  | nil => intro b; simp
  | cons y ys ih =>
    intro b
    rw [List.foldl_cons]
    obtain ⟨h1, h2⟩ := ih (if ts b < ts y then y else b)
    have hb : ts b ≤ ts (if ts b < ts y then y else b) := by
      by_cases hc : ts b < ts y
      · simp [hc]; omega
      · simp [hc]
    have hy : ts y ≤ ts (if ts b < ts y then y else b) := by
      by_cases hc : ts b < ts y
      · simp [hc]
      · simp [hc]; omega
    refine ⟨hb.trans h1, ?_⟩
    intro u hu
    rcases List.mem_cons.mp hu with rfl | hu'
    · exact hy.trans h1
    · exact h2 u hu'

/-- The function `pyMax` of a non-empty list is a member of the list. -/
lemma pyMax_mem (ts : Nat → Nat) (l : List Nat) (hl : l ≠ []) : pyMax ts l ∈ l := by
  cases l with
  | nil => exact absurd rfl hl
  | cons x xs => exact pyMax_foldl_mem ts xs x

/-- The function `pyMax` attains the maximal key among the list members. -/
lemma pyMax_ge (ts : Nat → Nat) (l : List Nat) (u : Nat) (hu : u ∈ l) :
    ts u ≤ ts (pyMax ts l) := by
  cases l with
  | nil => cases hu
  | cons x xs =>
    rcases List.mem_cons.mp hu with rfl | hu'
    · exact (pyMax_foldl_ge ts xs u).1
    · exact (pyMax_foldl_ge ts xs x).2 u hu'

/-- Erasing, in turn, every element of a duplicate-free list from that
same list leaves nothing (the victim's `held` list after the first
abort loop). -/
lemma foldl_erase_self :
    ∀ (l : List String), l.Nodup → l.foldl (fun h k => h.erase k) l = [] := by
  intro l
  induction l with
  | nil => intro _; rfl
  | cons x xs ih =>
    intro hnd
    rw [List.foldl_cons, List.erase_cons_head]
    exact ih (List.Nodup.of_cons hnd)

/-- In a chain `h :: tl` for the relation `fun a b => a ∈ adj b`,
every element of the tail has a predecessor pointing into its
adjacency list. -/
lemma chain_tail_pred (adj : Nat → List Nat) :
    ∀ (h : Nat) (tl : List Nat),
      List.Chain' (fun a b => a ∈ adj b) (h :: tl) → ∀ x ∈ tl, ∃ y, y ∈ adj x := by
  intro h tl
  induction tl generalizing h with
  | nil => intro _ x hx; cases hx
  | cons a tl' ih =>
    intro hch x hx
    rw [List.chain'_cons] at hch
    rcases List.mem_cons.mp hx with rfl | hx'
    · exact ⟨h, hch.1⟩
    · exact ih a hch.2 x hx'

/-! ### Characterisation of the DFS cycle report -/

/-- Precondition threaded through `dfsAux`: in node mode the path
`stack` is a chain and (unless empty) its head is adjacent to the node
being entered; in neighbour mode the path is a non-empty chain whose
head's adjacency list contains all remaining work. -/
def DfsPre (adj : Nat → List Nat) : Sum Nat (List Nat) → List Nat → Prop
  | Sum.inl v, stack =>
      List.Chain' (fun a b => a ∈ adj b) stack ∧
        (stack = [] ∨ ∃ h tl, stack = h :: tl ∧ v ∈ adj h)
  | Sum.inr work, stack =>
      ∃ h tl, stack = h :: tl ∧
        List.Chain' (fun a b => a ∈ adj b) stack ∧ ∀ x ∈ work, x ∈ adj h

/-- Whenever `dfsAux` reports a cycle, the report is the DFS path at
the moment of detection: a non-empty chain (each node adjacent to its
successor on the path) closed by the revisited node, which lies both
on the path and in the head's adjacency list. -/
theorem dfsAux_some_char (adj : Nat → List Nat) :
    ∀ (fuel : Nat) (mode : Sum Nat (List Nat)) (visited stack c vis' : List Nat),
      DfsPre adj mode stack →
      dfsAux adj fuel mode visited stack = (some c, vis') →
      ∃ h tl, c = h :: tl ∧ List.Chain' (fun a b => a ∈ adj b) c ∧
        ∃ nb, nb ∈ c ∧ nb ∈ adj h := by
  intro fuel
  induction fuel with
  | zero =>
    intro mode visited stack c vis' _ heq
    exact absurd (congrArg Prod.fst heq) (by simp [dfsAux])
  | succ fuel ih =>
    intro mode visited stack c vis' hpre heq
    cases mode with
    | inl v =>
      rw [dfsAux] at heq
      obtain ⟨hch, hhead⟩ := hpre
      refine ih (Sum.inr (adj v)) (v :: visited) (v :: stack) c vis' ?_ heq
      refine ⟨v, stack, rfl, ?_, fun x hx => hx⟩
      rcases hhead with rfl | ⟨h, tl, rfl, hv⟩
      · exact List.chain'_singleton v
      · exact List.chain'_cons.mpr ⟨hv, hch⟩
    | inr work =>
      cases work with
      | nil => exact absurd (congrArg Prod.fst heq) (by simp [dfsAux])
      | cons nb rest =>
        obtain ⟨h, tl, rfl, hch, hwork⟩ := hpre
        rw [dfsAux] at heq
        by_cases hv : nb ∈ visited
        · rw [if_neg (by simpa using hv)] at heq
          by_cases hs : nb ∈ h :: tl
          · rw [if_pos hs] at heq
            injection heq with h1 h2
            injection h1 with h1
            subst h1
            exact ⟨h, tl, rfl, hch, nb, hs, hwork nb (List.mem_cons_self nb rest)⟩
          · rw [if_neg hs] at heq
            exact ih (Sum.inr rest) visited (h :: tl) c vis'
              ⟨h, tl, rfl, hch, fun x hx => hwork x (List.mem_cons_of_mem nb hx)⟩ heq
        · rw [if_pos (by simpa using hv)] at heq
          rcases hr : dfsAux adj fuel (Sum.inl nb) visited (h :: tl) with ⟨oc, vis₀⟩
          rw [hr] at heq
          cases oc with
          | some cyc =>
            injection heq with h1 h2
            injection h1 with h1
            subst h1
            subst h2
            exact ih (Sum.inl nb) visited (h :: tl) cyc vis₀
              ⟨hch, Or.inr ⟨h, tl, rfl, hwork nb (List.mem_cons_self nb rest)⟩⟩ hr
          | none =>
            exact ih (Sum.inr rest) vis₀ (h :: tl) c vis'
              ⟨h, tl, rfl, hch, fun x hx => hwork x (List.mem_cons_of_mem nb hx)⟩ heq

/-- Every member of a reported cycle has a non-empty adjacency list
(it is a transaction that is waiting on some owned resource). -/
theorem dfsAux_some_adj_ne (adj : Nat → List Nat) (fuel v : Nat)
    (visited c vis' : List Nat)
    (heq : dfsAux adj fuel (Sum.inl v) visited [] = (some c, vis')) :
    ∀ x ∈ c, adj x ≠ [] := by
  obtain ⟨h, tl, rfl, hch, nb, hnb, hnbe⟩ :=
    dfsAux_some_char adj fuel (Sum.inl v) visited [] c vis'
      ⟨List.chain'_nil, Or.inl rfl⟩ heq
  intro x hx hadj
  rcases List.mem_cons.mp hx with rfl | hx'
  · rw [hadj] at hnbe
    exact (List.not_mem_nil nb) hnbe
  · obtain ⟨y, hy⟩ := chain_tail_pred adj h tl hch x hx'
    rw [hadj] at hy
    exact (List.not_mem_nil y) hy

/-! ### Membership in the wait-for graph adjacency -/

/-- Membership after one resource's edge fold: an edge to `o` appears
for exactly the waiters in that resource's queue. -/
lemma foldl_queue_adj (o : Nat) :
    ∀ (q : List Nat) (adj : Nat → List Nat) (w x : Nat),
      x ∈ (q.foldl (fun a w' => Function.update a w' (a w' ++ [o])) adj) w ↔
        x ∈ adj w ∨ (x = o ∧ w ∈ q) := by
  intro q
  induction q with
  | nil => intro adj w x; simp
  | cons w' rest ih =>
    intro adj w x
    rw [List.foldl_cons, ih]
    by_cases hw : w = w'
    · subst hw
      rw [Function.update_same]
      simp only [List.mem_append, List.mem_cons, List.not_mem_nil, or_false]
      constructor
      · rintro ((h | h) | h)
        · exact Or.inl h
        · exact Or.inr ⟨h, Or.inl trivial⟩
        · exact Or.inr ⟨h.1, Or.inr h.2⟩
      · rintro (h | ⟨rfl, _⟩)
        · exact Or.inl (Or.inl h)
        · exact Or.inl (Or.inr rfl)
    · rw [Function.update_noteq hw]
      simp only [List.mem_cons]
      constructor
      · rintro (h | ⟨rfl, h⟩)
        · exact Or.inl h
        · exact Or.inr ⟨rfl, Or.inr h⟩
      · rintro (h | ⟨rfl, (h | h)⟩)
        · exact Or.inl h
        · exact absurd h hw
        · exact Or.inr ⟨rfl, h⟩

/-- Membership after one resource's `addEdges`. -/
lemma addEdges_mem (res : Resource) (adj : Nat → List Nat) (w x : Nat) :
    x ∈ addEdges res adj w ↔
      x ∈ adj w ∨ (res.locked_by = some x ∧ w ∈ res.queue) := by
  unfold addEdges
  cases hres : res.locked_by with
  | none => simp
  | some o =>
    rw [foldl_queue_adj]
    constructor
    · rintro (h | ⟨rfl, h⟩)
      · exact Or.inl h
      · exact Or.inr ⟨rfl, h⟩
    · rintro (h | ⟨h, hq⟩)
      · exact Or.inl h
      · injection h with h
        exact Or.inr ⟨h.symm, hq⟩

/-- The wait-for graph has an edge from `w` to `x` exactly when some
resource is owned by `x` with `w` in its wait queue. -/
theorem buildAdj_mem (s : LMState) (w x : Nat) :
    x ∈ buildAdj s w ↔
      ∃ k, k ∈ s.keys ∧ (s.resources k).locked_by = some x ∧
        w ∈ (s.resources k).queue := by
  have main : ∀ (ks : List String) (adj : Nat → List Nat),
      x ∈ (ks.foldl (fun a k => addEdges (s.resources k) a) adj) w ↔
        x ∈ adj w ∨ ∃ k, k ∈ ks ∧ (s.resources k).locked_by = some x ∧
          w ∈ (s.resources k).queue := by
    intro ks
    induction ks with
    | nil => intro adj; simp
    | cons k rest ih =>
      intro adj
      rw [List.foldl_cons, ih, addEdges_mem]
      constructor
      · rintro ((h | h) | ⟨k', hk', h⟩)
        · exact Or.inl h
        · exact Or.inr ⟨k, List.mem_cons_self k rest, h⟩
        · exact Or.inr ⟨k', List.mem_cons_of_mem k hk', h⟩
      · rintro (h | ⟨k', hk', h⟩)
        · exact Or.inl (Or.inl h)
        · rcases List.mem_cons.mp hk' with rfl | hk''
          · exact Or.inl (Or.inr h)
          · exact Or.inr ⟨k', hk'', h⟩
  rw [buildAdj, main s.keys (fun _ => [])]
  simp

/-! ### Characterisation of the detection pass -/

/-- The detection loop either leaves the state untouched and reports
no cycle, or resolves exactly the first discovered cycle: the result
is one `abortTxn` of the `pyMax`-victim applied to the state with
`deadlock_count` bumped, and the loop returns at once. -/
theorem detectLoop_char (adj : Nat → List Nat) (fuel : Nat) :
    ∀ (ns visited : List Nat) (s : LMState),
      detectLoop adj fuel ns visited s = (s, none) ∨
      ∃ cyc t vis₀ vis₁,
        dfsAux adj fuel (Sum.inl t) vis₀ [] = (some cyc, vis₁) ∧ cyc ≠ [] ∧
        detectLoop adj fuel ns visited s =
          ((abortTxn (pyMax (fun u => (s.txns u).ts) cyc)
              { s with deadlock_count := s.deadlock_count + 1 }).1,
           some (cyc, pyMax (fun u => (s.txns u).ts) cyc)) := by
  intro ns
  induction ns with
  | nil => intro visited s; left; rfl
  | cons t rest ih =>
    intro visited s
    rw [detectLoop]
    by_cases hv : t ∈ visited
    · rw [if_pos hv]
      exact ih visited s
    · rw [if_neg hv]
      rcases hr : dfsAux adj fuel (Sum.inl t) visited [] with ⟨oc, vis'⟩
      cases oc with
      | none => exact ih vis' s
      | some cyc =>
        by_cases hc : cyc = []
        · have hred :
              (match (some cyc, vis') with
                | (some cyc, visited') =>
                  if cyc = [] then detectLoop adj fuel rest visited' s
                  else
                    let v := pyMax (fun u => (s.txns u).ts) cyc
                    ((abortTxn v
                        { s with deadlock_count := s.deadlock_count + 1 }).1,
                     some (cyc, v))
                | (none, visited') => detectLoop adj fuel rest visited' s) =
              detectLoop adj fuel rest vis' s := by
            simp only [if_pos hc]
          rw [hred]
          exact ih vis' s
        · exact Or.inr ⟨cyc, t, visited, vis', hr, hc, by simp only [if_neg hc]⟩

/-- The pass `detect_and_resolve` unfolded through `detectLoop_char`. -/
theorem detect_and_resolve_char (s : LMState) :
    detect_and_resolve s = (s, none) ∨
    ∃ cyc t vis₀ vis₁,
      dfsAux (buildAdj s)
          ((buildNodes s).length +
            ((buildNodes s).map (fun v => (buildAdj s v).length)).sum + 1)
          (Sum.inl t) vis₀ [] = (some cyc, vis₁) ∧ cyc ≠ [] ∧
      detect_and_resolve s =
        ((abortTxn (pyMax (fun u => (s.txns u).ts) cyc)
            { s with deadlock_count := s.deadlock_count + 1 }).1,
         some (cyc, pyMax (fun u => (s.txns u).ts) cyc)) := by
  have h := detectLoop_char (buildAdj s)
    ((buildNodes s).length +
      ((buildNodes s).map (fun v => (buildAdj s v).length)).sum + 1)
    (buildNodes s) [] s
  rcases h with h | ⟨cyc, t, vis₀, vis₁, hdfs, hne, heq⟩
  · left; exact h
  · right; exact ⟨cyc, t, vis₀, vis₁, hdfs, hne, heq⟩

/-! ### Characterisation of `_abort` -/

/-- Shape of the state after the held-clearing loop of `_abort`: the
listed resources lose their owner (queues untouched), the victim's
`held` has the listed keys erased in turn, everything else (other
transactions, counters, key/tid tables) is untouched, and exactly the
listed keys are notified. -/
lemma abortHeldLoop_char (v : Nat) :
    ∀ (l : List String) (s : LMState),
      (abortHeldLoop v l s).2 = l ∧
      (abortHeldLoop v l s).1.keys = s.keys ∧
      (abortHeldLoop v l s).1.tids = s.tids ∧
      (abortHeldLoop v l s).1.deadlock_count = s.deadlock_count ∧
      (abortHeldLoop v l s).1.abort_count = s.abort_count ∧
      (abortHeldLoop v l s).1.wait_times = s.wait_times ∧
      (∀ k, (abortHeldLoop v l s).1.resources k =
        if k ∈ l then { s.resources k with locked_by := none }
        else s.resources k) ∧
      (∀ u, u ≠ v → (abortHeldLoop v l s).1.txns u = s.txns u) ∧
      (abortHeldLoop v l s).1.txns v =
        { s.txns v with held := l.foldl (fun h k => h.erase k) (s.txns v).held } := by
  intro l
  induction l with
  | nil =>
    intro s
    refine ⟨rfl, rfl, rfl, rfl, rfl, rfl, ?_, fun u _ => rfl, ?_⟩
    · intro k; simp [abortHeldLoop]
    · simp [abortHeldLoop]
  | cons k rest ih =>
    intro s
    set s' : LMState :=
      { s with
        resources := Function.update s.resources k
          { s.resources k with locked_by := none },
        txns := Function.update s.txns v
          { s.txns v with held := (s.txns v).held.erase k } } with hs'
    have hunfold : abortHeldLoop v (k :: rest) s =
        ((abortHeldLoop v rest s').1, k :: (abortHeldLoop v rest s').2) := by
      rw [abortHeldLoop]
    obtain ⟨h2, hkeys, htids, hdc, hac, hwt, hres, htxo, htxv⟩ := ih s'
    rw [hunfold]
    refine ⟨by rw [h2], by rw [hkeys], by rw [htids], by rw [hdc], by rw [hac],
      by rw [hwt], ?_, ?_, ?_⟩
    · intro k'
      rw [hres k']
      by_cases hkr : k' ∈ rest
      · rw [if_pos hkr, if_pos (List.mem_cons_of_mem k hkr)]
        by_cases hkk : k' = k
        · subst hkk
          simp [hs', Function.update_same]
        · simp [hs', Function.update_noteq hkk]
      · rw [if_neg hkr]
        by_cases hkk : k' = k
        · subst hkk
          rw [if_pos (List.mem_cons_self k' rest)]
          simp [hs', Function.update_same]
        · rw [if_neg (by simp [hkk, hkr])]
          simp [hs', Function.update_noteq hkk]
    · intro u hu
      rw [htxo u hu]
      simp [hs', Function.update_noteq hu]
    · rw [htxv]
      simp only [hs', Function.update_same, List.foldl_cons]

/-- Shape of the state after the queue-cleanup loop of `_abort` over a
duplicate-free key list: the victim is erased from the listed queues
(ownership untouched), nothing else changes, and the notified keys are
exactly those listed queues that contained the victim. -/
lemma abortQueueLoop_char (v : Nat) :
    ∀ (l : List String), l.Nodup → ∀ (s : LMState),
      (abortQueueLoop v l s).1.keys = s.keys ∧
      (abortQueueLoop v l s).1.tids = s.tids ∧
      (abortQueueLoop v l s).1.deadlock_count = s.deadlock_count ∧
      (abortQueueLoop v l s).1.abort_count = s.abort_count ∧
      (abortQueueLoop v l s).1.wait_times = s.wait_times ∧
      (∀ u, (abortQueueLoop v l s).1.txns u = s.txns u) ∧
      (∀ k, (abortQueueLoop v l s).1.resources k =
        if k ∈ l then { s.resources k with queue := (s.resources k).queue.erase v }
        else s.resources k) ∧
      (∀ k, k ∈ (abortQueueLoop v l s).2 ↔
        k ∈ l ∧ v ∈ (s.resources k).queue) := by
  intro l
  induction l with
  | nil =>
    intro _ s
    refine ⟨rfl, rfl, rfl, rfl, rfl, fun u => rfl, ?_, ?_⟩
    · intro k; simp [abortQueueLoop]
    · intro k; simp [abortQueueLoop]
  | cons k rest ih =>
    intro hnd s
    have hknr : k ∉ rest := (List.nodup_cons.mp hnd).1
    have hrest : rest.Nodup := (List.nodup_cons.mp hnd).2
    by_cases hq : v ∈ (s.resources k).queue
    · set s' : LMState :=
        { s with
          resources := Function.update s.resources k
            { s.resources k with queue := (s.resources k).queue.erase v } } with hs'
      have hunfold : abortQueueLoop v (k :: rest) s =
          ((abortQueueLoop v rest s').1, k :: (abortQueueLoop v rest s').2) := by
        rw [abortQueueLoop, if_pos hq]
      obtain ⟨hkeys, htids, hdc, hac, hwt, htx, hres, hnot⟩ := ih hrest s'
      rw [hunfold]
      refine ⟨by rw [hkeys], by rw [htids], by rw [hdc], by rw [hac], by rw [hwt],
        fun u => by rw [htx u], ?_, ?_⟩
      · intro k'
        rw [hres k']
        by_cases hkr : k' ∈ rest
        · have hkk : k' ≠ k := fun h => hknr (h ▸ hkr)
          rw [if_pos hkr, if_pos (List.mem_cons_of_mem k hkr)]
          simp [hs', Function.update_noteq hkk]
        · rw [if_neg hkr]
          by_cases hkk : k' = k
          · subst hkk
            rw [if_pos (List.mem_cons_self k' rest)]
            simp [hs', Function.update_same]
          · rw [if_neg (by simp [hkk, hkr])]
            simp [hs', Function.update_noteq hkk]
      · intro k'
        simp only [List.mem_cons, hnot k']
        constructor
        · rintro (rfl | ⟨hk1, hk2⟩)
          · exact ⟨Or.inl rfl, hq⟩
          · have hkk : k' ≠ k := fun h => hknr (h ▸ hk1)
            refine ⟨Or.inr hk1, ?_⟩
            simpa [Function.update_noteq hkk] using hk2
        · rintro ⟨rfl | hk1, hk2⟩
          · exact Or.inl rfl
          · have hkk : k' ≠ k := fun h => hknr (h ▸ hk1)
            exact Or.inr ⟨hk1, by simpa [hs', Function.update_noteq hkk] using hk2⟩
    · have hunfold : abortQueueLoop v (k :: rest) s = abortQueueLoop v rest s := by
        rw [abortQueueLoop, if_neg hq]
      obtain ⟨hkeys, htids, hdc, hac, hwt, htx, hres, hnot⟩ := ih hrest s
      rw [hunfold]
      refine ⟨hkeys, htids, hdc, hac, hwt, htx, ?_, ?_⟩
      · intro k'
        rw [hres k']
        by_cases hkr : k' ∈ rest
        · rw [if_pos hkr, if_pos (List.mem_cons_of_mem k hkr)]
        · rw [if_neg hkr]
          by_cases hkk : k' = k
          · subst hkk
            rw [if_pos (List.mem_cons_self k' rest)]
            rw [List.erase_of_not_mem hq]
          · rw [if_neg (by simp [hkk, hkr])]
      · intro k'
        rw [hnot k']
        simp only [List.mem_cons]
        constructor
        · rintro ⟨hk1, hk2⟩
          exact ⟨Or.inr hk1, hk2⟩
        · rintro ⟨rfl | hk1, hk2⟩
          · exact absurd hk2 hq
          · exact ⟨hk1, hk2⟩

/-- Combined shape of `_abort`: the victim's flag is set and its
`held` processed by the erase fold, every resource it held is freed,
the victim is erased from every (existing) queue, other transactions
and the queues' relative order are untouched, `abort_count` is bumped,
and the notified keys are the held snapshot plus the queues that
contained the victim. -/
lemma abortTxn_char (v : Nat) (s : LMState) (hknd : s.keys.Nodup) :
    (abortTxn v s).1.keys = s.keys ∧
    (abortTxn v s).1.tids = s.tids ∧
    (abortTxn v s).1.deadlock_count = s.deadlock_count ∧
    (abortTxn v s).1.abort_count = s.abort_count + 1 ∧
    (abortTxn v s).1.wait_times = s.wait_times ∧
    (∀ u, u ≠ v → (abortTxn v s).1.txns u = s.txns u) ∧
    (abortTxn v s).1.txns v =
      { ts := (s.txns v).ts,
        held := (s.txns v).held.foldl (fun h k => h.erase k) (s.txns v).held,
        aborted := true,
        status := (s.txns v).status } ∧
    (∀ k, (abortTxn v s).1.resources k =
      { locked_by :=
          if k ∈ (s.txns v).held then none else (s.resources k).locked_by,
        queue :=
          if k ∈ s.keys then (s.resources k).queue.erase v
          else (s.resources k).queue }) ∧
    (∀ k, k ∈ (abortTxn v s).2 ↔
      k ∈ (s.txns v).held ∨ (k ∈ s.keys ∧ v ∈ (s.resources k).queue)) := by
  set s0 : LMState :=
    { s with
      abort_count := s.abort_count + 1,
      txns := Function.update s.txns v { s.txns v with aborted := true } } with hs0
  have hsnap : (s0.txns v).held = (s.txns v).held := by
    simp [hs0, Function.update_same]
  have hs0res : ∀ k, s0.resources k = s.resources k := fun k => rfl
  have hs0txn : ∀ u, u ≠ v → s0.txns u = s.txns u := by
    intro u hu
    simp [hs0, Function.update_noteq hu]
  have hs0txnv : s0.txns v = { s.txns v with aborted := true } := by
    simp [hs0, Function.update_same]
  obtain ⟨p12, p1keys, p1tids, p1dc, p1ac, p1wt, p1res, p1txo, p1txv⟩ :=
    abortHeldLoop_char v ((s0.txns v).held) s0
  set p1 : LMState := (abortHeldLoop v ((s0.txns v).held) s0).1 with hp1
  have hq1 : ∀ k, (p1.resources k).queue = (s.resources k).queue := by
    intro k
    rw [p1res k]
    by_cases h : k ∈ (s0.txns v).held
    · rw [if_pos h]
    · rw [if_neg h]
  have hp1keys : p1.keys = s.keys := p1keys
  have hp1knd : p1.keys.Nodup := by rw [hp1keys]; exact hknd
  obtain ⟨q1keys, q1tids, q1dc, q1ac, q1wt, q1tx, q1res, q1not⟩ :=
    abortQueueLoop_char v p1.keys hp1knd p1
  have hfinal : abortTxn v s =
      ((abortQueueLoop v p1.keys p1).1,
        (abortHeldLoop v ((s0.txns v).held) s0).2 ++ (abortQueueLoop v p1.keys p1).2) := by
    rw [abortTxn]
  rw [hfinal]
  refine ⟨by rw [q1keys, hp1keys], by rw [q1tids, p1tids], by rw [q1dc, p1dc],
    by rw [q1ac, p1ac], by rw [q1wt, p1wt], ?_, ?_, ?_, ?_⟩
  · intro u hu
    rw [q1tx u, p1txo u hu, hs0txn u hu]
  · rw [q1tx v, p1txv, hs0txnv]
  · intro k
    rw [q1res k, hp1keys]
    by_cases hkk : k ∈ s.keys <;> by_cases hh : k ∈ (s.txns v).held <;>
      simp [hkk, hh, p1res k, hsnap, hs0res k, hq1 k]
  · intro k
    rw [List.mem_append, p12, hsnap, q1not k, hp1keys, hq1 k]

/-- After `_abort` on a victim whose `held` list is duplicate-free,
the victim holds nothing. -/
lemma abortTxn_held_empty (v : Nat) (s : LMState) (hknd : s.keys.Nodup)
    (hnd : (s.txns v).held.Nodup) :
    ((abortTxn v s).1.txns v).held = [] := by
  obtain ⟨_, _, _, _, _, _, htxv, _, _⟩ := abortTxn_char v s hknd
  rw [htxv]
  exact foldl_erase_self _ hnd

/-! ### The reachability invariant -/

/-- Strengthened invariant of the lock manager, preserved by every
atomic step.  The first three fields are the claimed resource
invariant; the rest is the inductive strengthening that makes the
proof go through (consistency of `held` with ownership, of `status`
with the queues, the abort-flag discipline, and silence of
non-existing keys). -/
structure Inv (s : LMState) : Prop where
  keys_nodup : s.keys.Nodup
  queue_nodup : ∀ k, (s.resources k).queue.Nodup
  owner_notin : ∀ k o, (s.resources k).locked_by = some o → o ∉ (s.resources k).queue
  queue_status : ∀ k t, t ∈ (s.resources k).queue → (s.txns t).status = TStatus.waiting k
  waiting_queue : ∀ k t, (s.txns t).status = TStatus.waiting k →
    (s.txns t).aborted = false → t ∈ (s.resources k).queue
  held_owner : ∀ t k, k ∈ (s.txns t).held → (s.resources k).locked_by = some t
  owner_held : ∀ t k, (s.resources k).locked_by = some t → k ∈ (s.txns t).held
  held_nodup : ∀ t, (s.txns t).held.Nodup
  aborted_waiting : ∀ t, (s.txns t).aborted = true →
    ∃ k, (s.txns t).status = TStatus.waiting k
  aborted_held : ∀ t, (s.txns t).aborted = true → (s.txns t).held = []
  aborted_queue : ∀ t k, (s.txns t).aborted = true → t ∉ (s.resources k).queue
  unused_owner : ∀ k, k ∉ s.keys → (s.resources k).locked_by = none
  unused_queue : ∀ k, k ∉ s.keys → (s.resources k).queue = []

/-- A transaction outside the wait loop is in no queue. -/
lemma Inv.idle_notin_queue {s : LMState} (hInv : Inv s) {t : Nat}
    (hs : (s.txns t).status = TStatus.idle) :
    ∀ k, t ∉ (s.resources k).queue := by
  intro k hm
  have h := hInv.queue_status k t hm
  rw [hs] at h
  cases h

/-- A transaction outside the wait loop has a clear abort flag. -/
lemma Inv.idle_not_aborted {s : LMState} (hInv : Inv s) {t : Nat}
    (hs : (s.txns t).status = TStatus.idle) :
    (s.txns t).aborted = false := by
  cases hab : (s.txns t).aborted with
  | false => rfl
  | true =>
    obtain ⟨k0, hk0⟩ := hInv.aborted_waiting t hab
    rw [hs] at hk0
    cases hk0

/-- The initial state satisfies the invariant. -/
lemma inv_init (keys : List String) (tids : List Nat) (ts : Nat → Nat)
    (hkeys : keys.Nodup) : Inv (initState keys tids ts) := by
  constructor <;> intros <;> simp_all [initState]

/-- Running `_abort` on a transaction that is blocked in some wait loop
preserves the invariant. -/
lemma inv_abortTxn (v : Nat) (s : LMState) (hInv : Inv s)
    (hw : ∃ k0, (s.txns v).status = TStatus.waiting k0) :
    Inv (abortTxn v s).1 := by
  obtain ⟨hkeys, htids, hdc, hac, hwt, htxo, htxv, hres, hnot⟩ :=
    abortTxn_char v s hInv.keys_nodup
  have hheldv : ((abortTxn v s).1.txns v).held = [] :=
    abortTxn_held_empty v s hInv.keys_nodup (hInv.held_nodup v)
  set r : LMState := (abortTxn v s).1 with hr
  have hqr : ∀ k, (r.resources k).queue =
      if k ∈ s.keys then (s.resources k).queue.erase v
      else (s.resources k).queue := by
    intro k; rw [hres k]
  have hlr : ∀ k, (r.resources k).locked_by =
      if k ∈ (s.txns v).held then none else (s.resources k).locked_by := by
    intro k; rw [hres k]
  have hqsub : ∀ k t, t ∈ (r.resources k).queue → t ∈ (s.resources k).queue := by
    intro k t ht
    rw [hqr k] at ht
    by_cases hkk : k ∈ s.keys
    · rw [if_pos hkk] at ht
      exact List.mem_of_mem_erase ht
    · rw [if_neg hkk] at ht
      exact ht
  refine ⟨?_, ?_, ?_, ?_, ?_, ?_, ?_, ?_, ?_, ?_, ?_, ?_, ?_⟩
  · rw [hkeys]; exact hInv.keys_nodup
  · intro k
    rw [hqr k]
    by_cases hkk : k ∈ s.keys
    · rw [if_pos hkk]
      exact List.Nodup.erase v (hInv.queue_nodup k)
    · rw [if_neg hkk]
      exact hInv.queue_nodup k
  · intro k o ho hmem
    rw [hlr k] at ho
    by_cases hh : k ∈ (s.txns v).held
    · rw [if_pos hh] at ho
      cases ho
    · rw [if_neg hh] at ho
      exact hInv.owner_notin k o ho (hqsub k o hmem)
  · intro k t ht
    have hts := hInv.queue_status k t (hqsub k t ht)
    by_cases htv : t = v
    · subst htv
      rw [htxv]
      exact hts
    · rw [htxo t htv]
      exact hts
  · intro k t hst hab
    by_cases htv : t = v
    · subst htv
      rw [htxv] at hab
      simp at hab
    · rw [htxo t htv] at hst hab
      have hq := hInv.waiting_queue k t hst hab
      rw [hqr k]
      by_cases hkk : k ∈ s.keys
      · rw [if_pos hkk]
        exact (List.mem_erase_of_ne htv).mpr hq
      · rw [if_neg hkk]
        exact hq
  · intro t k hk
    by_cases htv : t = v
    · subst htv
      rw [hheldv] at hk
      cases hk
    · rw [htxo t htv] at hk
      have ho := hInv.held_owner t k hk
      have hh : k ∉ (s.txns v).held := by
        intro hmem
        have hv := hInv.held_owner v k hmem
        rw [ho] at hv
        injection hv with hv
        exact htv hv
      rw [hlr k, if_neg hh]
      exact ho
  · intro t k ho
    rw [hlr k] at ho
    by_cases hh : k ∈ (s.txns v).held
    · rw [if_pos hh] at ho
      cases ho
    · rw [if_neg hh] at ho
      have hk := hInv.owner_held t k ho
      by_cases htv : t = v
      · subst htv
        exact absurd hk hh
      · rw [htxo t htv]
        exact hk
  · intro t
    by_cases htv : t = v
    · subst htv
      rw [hheldv]
      exact List.nodup_nil
    · rw [htxo t htv]
      exact hInv.held_nodup t
  · intro t hab
    by_cases htv : t = v
    · subst htv
      obtain ⟨k0, hk0⟩ := hw
      refine ⟨k0, ?_⟩
      rw [htxv]
      exact hk0
    · rw [htxo t htv] at hab ⊢
      exact hInv.aborted_waiting t hab
  · intro t hab
    by_cases htv : t = v
    · subst htv
      exact hheldv
    · rw [htxo t htv] at hab ⊢
      exact hInv.aborted_held t hab
  · intro t k hab
    rw [hqr k]
    by_cases htv : t = v
    · subst htv
      by_cases hkk : k ∈ s.keys
      · rw [if_pos hkk]
        intro hmem
        rw [List.Nodup.mem_erase_iff (hInv.queue_nodup k)] at hmem
        exact hmem.1 rfl
      · rw [if_neg hkk, hInv.unused_queue k hkk]
        exact List.not_mem_nil t
    · rw [htxo t htv] at hab
      have hnm := hInv.aborted_queue t k hab
      by_cases hkk : k ∈ s.keys
      · rw [if_pos hkk]
        intro hmem
        exact hnm (List.mem_of_mem_erase hmem)
      · rw [if_neg hkk]
        exact hnm
  · intro k hk
    rw [hkeys] at hk
    rw [hlr k]
    by_cases hh : k ∈ (s.txns v).held
    · rw [if_pos hh]
    · rw [if_neg hh]
      exact hInv.unused_owner k hk
  · intro k hk
    rw [hkeys] at hk
    rw [hqr k, if_neg hk]
    exact hInv.unused_queue k hk

/-- The invariant ignores the metric counters. -/
lemma inv_deadlock_bump (s : LMState) (hInv : Inv s) (n : Nat) :
    Inv { s with deadlock_count := n } :=
  ⟨hInv.keys_nodup, hInv.queue_nodup, hInv.owner_notin, hInv.queue_status,
    hInv.waiting_queue, hInv.held_owner, hInv.owner_held, hInv.held_nodup,
    hInv.aborted_waiting, hInv.aborted_held, hInv.aborted_queue,
    hInv.unused_owner, hInv.unused_queue⟩

/-- A detection pass preserves the invariant: either it does nothing,
or it aborts the `pyMax` victim of the discovered cycle, and every
cycle member — in particular the victim — is a transaction currently
blocked in a wait loop. -/
lemma inv_detect (s : LMState) (hInv : Inv s) : Inv (detect_and_resolve s).1 := by
  rcases detect_and_resolve_char s with h | ⟨cyc, t, vis₀, vis₁, hdfs, hne, heq⟩
  · rw [h]
    exact hInv
  · rw [heq]
    have hvmem : pyMax (fun u => (s.txns u).ts) cyc ∈ cyc := pyMax_mem _ cyc hne
    have hadj := dfsAux_some_adj_ne (buildAdj s) _ t vis₀ cyc vis₁ hdfs
      (pyMax (fun u => (s.txns u).ts) cyc) hvmem
    obtain ⟨o, ho⟩ := List.exists_mem_of_ne_nil _ hadj
    rw [buildAdj_mem] at ho
    obtain ⟨k, _, _, hkq⟩ := ho
    have hwv := hInv.queue_status k _ hkq
    exact inv_abortTxn _ _ (inv_deadlock_bump s hInv _) ⟨k, hwv⟩

/-- The free fast path of `acquire` preserves the invariant. -/
lemma inv_acquire_fast (t : Nat) (k : String) (s : LMState) (hInv : Inv s)
    (hk : k ∈ s.keys) (hs : (s.txns t).status = TStatus.idle)
    (h1 : (s.resources k).locked_by = none) :
    Inv { s with
      resources := Function.update s.resources k
        { s.resources k with locked_by := some t },
      txns := Function.update s.txns t
        { s.txns t with held := (s.txns t).held ++ [k] } } := by
  have hnq := hInv.idle_notin_queue hs
  have hna := hInv.idle_not_aborted hs
  set sF : LMState :=
    { s with
      resources := Function.update s.resources k
        { s.resources k with locked_by := some t },
      txns := Function.update s.txns t
        { s.txns t with held := (s.txns t).held ++ [k] } } with hsF
  have hq : ∀ k', (sF.resources k').queue = (s.resources k').queue := by
    intro k'
    by_cases hkk : k' = k
    · subst hkk; simp [hsF, Function.update_same]
    · simp [hsF, Function.update_noteq hkk]
  have hl : ∀ k', (sF.resources k').locked_by =
      if k' = k then some t else (s.resources k').locked_by := by
    intro k'
    by_cases hkk : k' = k
    · subst hkk; simp [hsF, Function.update_same]
    · simp [hsF, Function.update_noteq hkk, hkk]
  have hst : ∀ u, (sF.txns u).status = (s.txns u).status := by
    intro u
    by_cases hut : u = t
    · subst hut; simp [hsF, Function.update_same]
    · simp [hsF, Function.update_noteq hut]
  have hab : ∀ u, (sF.txns u).aborted = (s.txns u).aborted := by
    intro u
    by_cases hut : u = t
    · subst hut; simp [hsF, Function.update_same]
    · simp [hsF, Function.update_noteq hut]
  have hhd : ∀ u, (sF.txns u).held =
      if u = t then (s.txns t).held ++ [k] else (s.txns u).held := by
    intro u
    by_cases hut : u = t
    · subst hut; simp [hsF, Function.update_same]
    · simp [hsF, Function.update_noteq hut, hut]
  have hknotheld : k ∉ (s.txns t).held := by
    intro hmem
    have := hInv.held_owner t k hmem
    rw [h1] at this
    cases this
  refine ⟨hInv.keys_nodup, ?_, ?_, ?_, ?_, ?_, ?_, ?_, ?_, ?_, ?_, ?_, ?_⟩
  · intro k'
    rw [hq]
    exact hInv.queue_nodup k'
  · intro k' o ho hm
    rw [hl] at ho
    rw [hq] at hm
    by_cases hkk : k' = k
    · subst hkk
      rw [if_pos rfl] at ho
      injection ho with ho
      subst ho
      exact hnq k' hm
    · rw [if_neg hkk] at ho
      exact hInv.owner_notin k' o ho hm
  · intro k' u hu
    rw [hq] at hu
    rw [hst]
    exact hInv.queue_status k' u hu
  · intro k' u hstu habu
    rw [hst] at hstu
    rw [hab] at habu
    rw [hq]
    exact hInv.waiting_queue k' u hstu habu
  · intro u k' hk'
    rw [hhd] at hk'
    rw [hl]
    by_cases hut : u = t
    · subst hut
      rw [if_pos rfl] at hk'
      rcases List.mem_append.mp hk' with hin | hin
      · have ho := hInv.held_owner u k' hin
        have hkk : k' ≠ k := by
          intro h
          rw [h, h1] at ho
          cases ho
        rw [if_neg hkk]
        exact ho
      · rw [List.mem_singleton] at hin
        subst hin
        rw [if_pos rfl]
    · rw [if_neg hut] at hk'
      have ho := hInv.held_owner u k' hk'
      have hkk : k' ≠ k := by
        intro h
        rw [h, h1] at ho
        cases ho
      rw [if_neg hkk]
      exact ho
  · intro u k' ho
    rw [hl] at ho
    rw [hhd]
    by_cases hkk : k' = k
    · subst hkk
      rw [if_pos rfl] at ho
      injection ho with ho
      subst ho
      rw [if_pos rfl]
      exact List.mem_append.mpr (Or.inr (List.mem_singleton_self k'))
    · rw [if_neg hkk] at ho
      have hm := hInv.owner_held u k' ho
      by_cases hut : u = t
      · subst hut
        rw [if_pos rfl]
        exact List.mem_append.mpr (Or.inl hm)
      · rw [if_neg hut]
        exact hm
  · intro u
    rw [hhd]
    by_cases hut : u = t
    · rw [if_pos hut]
      refine List.Nodup.append (hInv.held_nodup t) (List.nodup_singleton k) ?_
      intro a ha hb
      rw [List.mem_singleton] at hb
      subst hb
      exact hknotheld ha
    · rw [if_neg hut]
      exact hInv.held_nodup u
  · intro u habu
    rw [hab] at habu
    obtain ⟨k0, h0⟩ := hInv.aborted_waiting u habu
    exact ⟨k0, by rw [hst]; exact h0⟩
  · intro u habu
    rw [hab] at habu
    rw [hhd]
    by_cases hut : u = t
    · subst hut
      rw [hna] at habu
      cases habu
    · rw [if_neg hut]
      exact hInv.aborted_held u habu
  · intro u k' habu
    rw [hab] at habu
    rw [hq]
    exact hInv.aborted_queue u k' habu
  · intro k' hk'
    rw [hl]
    have hkk : k' ≠ k := by
      intro h
      exact hk' (h ▸ hk)
    rw [if_neg hkk]
    exact hInv.unused_owner k' hk'
  · intro k' hk'
    rw [hq]
    exact hInv.unused_queue k' hk'

/-- Enqueueing an idle caller on a resource owned by someone else
preserves the invariant (the state on which `acquire` then runs the
synchronous detection pass). -/
lemma inv_enqueue (t : Nat) (k : String) (s : LMState) (hInv : Inv s)
    (hk : k ∈ s.keys) (hs : (s.txns t).status = TStatus.idle)
    (h2 : (s.resources k).locked_by ≠ some t) :
    Inv { s with
      resources := Function.update s.resources k
        { s.resources k with queue := (s.resources k).queue ++ [t] },
      txns := Function.update s.txns t
        { s.txns t with status := TStatus.waiting k } } := by
  have hnq := hInv.idle_notin_queue hs
  have hna := hInv.idle_not_aborted hs
  set s1 : LMState :=
    { s with
      resources := Function.update s.resources k
        { s.resources k with queue := (s.resources k).queue ++ [t] },
      txns := Function.update s.txns t
        { s.txns t with status := TStatus.waiting k } } with hs1
  have hq : ∀ k', (s1.resources k').queue =
      if k' = k then (s.resources k).queue ++ [t] else (s.resources k').queue := by
    intro k'
    by_cases hkk : k' = k
    · subst hkk; simp [hs1, Function.update_same]
    · simp [hs1, Function.update_noteq hkk, hkk]
  have hl : ∀ k', (s1.resources k').locked_by = (s.resources k').locked_by := by
    intro k'
    by_cases hkk : k' = k
    · subst hkk; simp [hs1, Function.update_same]
    · simp [hs1, Function.update_noteq hkk]
  have hst : ∀ u, (s1.txns u).status =
      if u = t then TStatus.waiting k else (s.txns u).status := by
    intro u
    by_cases hut : u = t
    · subst hut; simp [hs1, Function.update_same]
    · simp [hs1, Function.update_noteq hut, hut]
  have hab : ∀ u, (s1.txns u).aborted = (s.txns u).aborted := by
    intro u
    by_cases hut : u = t
    · subst hut; simp [hs1, Function.update_same]
    · simp [hs1, Function.update_noteq hut]
  have hhd : ∀ u, (s1.txns u).held = (s.txns u).held := by
    intro u
    by_cases hut : u = t
    · subst hut; simp [hs1, Function.update_same]
    · simp [hs1, Function.update_noteq hut]
  refine ⟨hInv.keys_nodup, ?_, ?_, ?_, ?_, ?_, ?_, ?_, ?_, ?_, ?_, ?_, ?_⟩
  · intro k'
    rw [hq]
    by_cases hkk : k' = k
    · rw [if_pos hkk]
      refine List.Nodup.append (hInv.queue_nodup k) (List.nodup_singleton t) ?_
      intro a ha hb
      rw [List.mem_singleton] at hb
      subst hb
      exact hnq k ha
    · rw [if_neg hkk]
      exact hInv.queue_nodup k'
  · intro k' o ho hm
    rw [hl] at ho
    rw [hq] at hm
    by_cases hkk : k' = k
    · subst hkk
      rw [if_pos rfl] at hm
      rcases List.mem_append.mp hm with hin | hin
      · exact hInv.owner_notin k' o ho hin
      · rw [List.mem_singleton] at hin
        subst hin
        exact h2 ho
    · rw [if_neg hkk] at hm
      exact hInv.owner_notin k' o ho hm
  · intro k' u hu
    rw [hq] at hu
    rw [hst]
    by_cases hkk : k' = k
    · subst hkk
      rw [if_pos rfl] at hu
      rcases List.mem_append.mp hu with hin | hin
      · by_cases hut : u = t
        · subst hut
          exact absurd hin (hnq k')
        · rw [if_neg hut]
          exact hInv.queue_status k' u hin
      · rw [List.mem_singleton] at hin
        subst hin
        rw [if_pos rfl]
    · rw [if_neg hkk] at hu
      by_cases hut : u = t
      · subst hut
        exact absurd hu (hnq k')
      · rw [if_neg hut]
        exact hInv.queue_status k' u hu
  · intro k' u hstu habu
    rw [hst] at hstu
    rw [hab] at habu
    rw [hq]
    by_cases hut : u = t
    · subst hut
      rw [if_pos rfl] at hstu
      injection hstu with hkk
      subst hkk
      rw [if_pos rfl]
      exact List.mem_append.mpr (Or.inr (List.mem_singleton_self u))
    · rw [if_neg hut] at hstu
      have hqm := hInv.waiting_queue k' u hstu habu
      by_cases hkk : k' = k
      · subst hkk
        rw [if_pos rfl]
        exact List.mem_append.mpr (Or.inl hqm)
      · rw [if_neg hkk]
        exact hqm
  · intro u k' hk'
    rw [hhd] at hk'
    rw [hl]
    exact hInv.held_owner u k' hk'
  · intro u k' ho
    rw [hl] at ho
    rw [hhd]
    exact hInv.owner_held u k' ho
  · intro u
    rw [hhd]
    exact hInv.held_nodup u
  · intro u habu
    rw [hab] at habu
    obtain ⟨k0, h0⟩ := hInv.aborted_waiting u habu
    by_cases hut : u = t
    · subst hut
      exact absurd habu (by rw [hna]; simp)
    · exact ⟨k0, by rw [hst, if_neg hut]; exact h0⟩
  · intro u habu
    rw [hab] at habu
    rw [hhd]
    exact hInv.aborted_held u habu
  · intro u k' habu
    rw [hab] at habu
    rw [hq]
    have hnmem := hInv.aborted_queue u k' habu
    by_cases hkk : k' = k
    · subst hkk
      rw [if_pos rfl]
      intro hm
      rcases List.mem_append.mp hm with hin | hin
      · exact hnmem hin
      · rw [List.mem_singleton] at hin
        subst hin
        rw [hna] at habu
        cases habu
    · rw [if_neg hkk]
      exact hnmem
  · intro k' hk'
    rw [hl]
    exact hInv.unused_owner k' hk'
  · intro k' hk'
    rw [hq]
    have hkk : k' ≠ k := fun h => hk' (h ▸ hk)
    rw [if_neg hkk]
    exact hInv.unused_queue k' hk'

/-- The operation `acquire` preserves the invariant (entry section including the
synchronous detection pass on the enqueue path). -/
lemma inv_acquire (t : Nat) (k : String) (s : LMState) (hInv : Inv s)
    (hk : k ∈ s.keys) (hs : (s.txns t).status = TStatus.idle) :
    Inv (acquire t k s) := by
  simp only [acquire]
  by_cases h1 : (s.resources k).locked_by = none
  · rw [if_pos h1]
    exact inv_acquire_fast t k s hInv hk hs h1
  · rw [if_neg h1]
    by_cases h2 : (s.resources k).locked_by = some t
    · rw [if_pos h2]
      exact hInv
    · rw [if_neg h2]
      exact inv_detect _ (inv_enqueue t k s hInv hk hs h2)

/-- Observing the abort flag in the wait loop (clear it, leave the
loop with the `AbortException`) preserves the invariant. -/
lemma inv_recheck_abort (t : Nat) (k : String) (s : LMState) (hInv : Inv s)
    (hs : (s.txns t).status = TStatus.waiting k)
    (hab : (s.txns t).aborted = true) :
    Inv { s with
      txns := Function.update s.txns t
        { s.txns t with aborted := false, status := TStatus.idle } } := by
  have hnq := hInv.aborted_queue t
  set sA : LMState :=
    { s with
      txns := Function.update s.txns t
        { s.txns t with aborted := false, status := TStatus.idle } } with hsA
  have hres : ∀ k', sA.resources k' = s.resources k' := fun k' => rfl
  have hst : ∀ u, (sA.txns u).status =
      if u = t then TStatus.idle else (s.txns u).status := by
    intro u
    by_cases hut : u = t
    · subst hut; simp [hsA, Function.update_same]
    · simp [hsA, Function.update_noteq hut, hut]
  have habe : ∀ u, (sA.txns u).aborted =
      if u = t then false else (s.txns u).aborted := by
    intro u
    by_cases hut : u = t
    · subst hut; simp [hsA, Function.update_same]
    · simp [hsA, Function.update_noteq hut, hut]
  have hhd : ∀ u, (sA.txns u).held = (s.txns u).held := by
    intro u
    by_cases hut : u = t
    · subst hut; simp [hsA, Function.update_same]
    · simp [hsA, Function.update_noteq hut]
  refine ⟨hInv.keys_nodup, ?_, ?_, ?_, ?_, ?_, ?_, ?_, ?_, ?_, ?_, ?_, ?_⟩
  · intro k'
    rw [hres]
    exact hInv.queue_nodup k'
  · intro k' o ho hm
    rw [hres] at ho hm
    exact hInv.owner_notin k' o ho hm
  · intro k' u hu
    rw [hres] at hu
    rw [hst]
    by_cases hut : u = t
    · subst hut
      exact absurd hu (hnq k' hab)
    · rw [if_neg hut]
      exact hInv.queue_status k' u hu
  · intro k' u hstu habu
    rw [hst] at hstu
    rw [habe] at habu
    rw [hres]
    by_cases hut : u = t
    · subst hut
      rw [if_pos rfl] at hstu
      cases hstu
    · rw [if_neg hut] at hstu habu
      exact hInv.waiting_queue k' u hstu habu
  · intro u k' hk'
    rw [hhd] at hk'
    rw [hres]
    exact hInv.held_owner u k' hk'
  · intro u k' ho
    rw [hres] at ho
    rw [hhd]
    exact hInv.owner_held u k' ho
  · intro u
    rw [hhd]
    exact hInv.held_nodup u
  · intro u habu
    rw [habe] at habu
    by_cases hut : u = t
    · subst hut
      rw [if_pos rfl] at habu
      cases habu
    · rw [if_neg hut] at habu
      obtain ⟨k0, h0⟩ := hInv.aborted_waiting u habu
      exact ⟨k0, by rw [hst, if_neg hut]; exact h0⟩
  · intro u habu
    rw [habe] at habu
    rw [hhd]
    by_cases hut : u = t
    · subst hut
      rw [if_pos rfl] at habu
      cases habu
    · rw [if_neg hut] at habu
      exact hInv.aborted_held u habu
  · intro u k' habu
    rw [habe] at habu
    rw [hres]
    by_cases hut : u = t
    · subst hut
      rw [if_pos rfl] at habu
      cases habu
    · rw [if_neg hut] at habu
      exact hInv.aborted_queue u k' habu
  · intro k' hk'
    rw [hres]
    exact hInv.unused_owner k' hk'
  · intro k' hk'
    rw [hres]
    exact hInv.unused_queue k' hk'

/-- Being granted the lock from the head of the queue preserves the
invariant. -/
lemma inv_recheck_grant (t : Nat) (k : String) (s : LMState) (hInv : Inv s)
    (hk : k ∈ s.keys) (hs : (s.txns t).status = TStatus.waiting k)
    (hab : (s.txns t).aborted = false)
    (h1 : (s.resources k).locked_by = none)
    (h2 : (s.resources k).queue.head? = some t) :
    Inv { s with
      resources := Function.update s.resources k
        { s.resources k with locked_by := some t, queue := (s.resources k).queue.tail },
      txns := Function.update s.txns t
        { s.txns t with held := (s.txns t).held ++ [k], status := TStatus.idle },
      wait_times := s.wait_times + 1 } := by
  obtain ⟨l, hque⟩ : ∃ l, (s.resources k).queue = t :: l := by
    cases hq0 : (s.resources k).queue with
    | nil => rw [hq0] at h2; cases h2
    | cons a l =>
      rw [hq0] at h2
      injection h2 with h2
      subst h2
      exact ⟨l, rfl⟩
  have htail : (s.resources k).queue.tail = l := by rw [hque]; rfl
  have htnl : t ∉ l := by
    have := hInv.queue_nodup k
    rw [hque] at this
    exact (List.nodup_cons.mp this).1
  have hknotheld : ∀ u, k ∉ (s.txns u).held := by
    intro u hmem
    have := hInv.held_owner u k hmem
    rw [h1] at this
    cases this
  set sB : LMState :=
    { s with
      resources := Function.update s.resources k
        { s.resources k with locked_by := some t, queue := (s.resources k).queue.tail },
      txns := Function.update s.txns t
        { s.txns t with held := (s.txns t).held ++ [k], status := TStatus.idle },
      wait_times := s.wait_times + 1 } with hsB
  have hq : ∀ k', (sB.resources k').queue =
      if k' = k then l else (s.resources k').queue := by
    intro k'
    by_cases hkk : k' = k
    · subst hkk; simp [hsB, Function.update_same, htail]
    · simp [hsB, Function.update_noteq hkk, hkk]
  have hl : ∀ k', (sB.resources k').locked_by =
      if k' = k then some t else (s.resources k').locked_by := by
    intro k'
    by_cases hkk : k' = k
    · subst hkk; simp [hsB, Function.update_same]
    · simp [hsB, Function.update_noteq hkk, hkk]
  have hst : ∀ u, (sB.txns u).status =
      if u = t then TStatus.idle else (s.txns u).status := by
    intro u
    by_cases hut : u = t
    · subst hut; simp [hsB, Function.update_same]
    · simp [hsB, Function.update_noteq hut, hut]
  have habe : ∀ u, (sB.txns u).aborted = (s.txns u).aborted := by
    intro u
    by_cases hut : u = t
    · subst hut; simp [hsB, Function.update_same]
    · simp [hsB, Function.update_noteq hut]
  have hhd : ∀ u, (sB.txns u).held =
      if u = t then (s.txns t).held ++ [k] else (s.txns u).held := by
    intro u
    by_cases hut : u = t
    · subst hut; simp [hsB, Function.update_same]
    · simp [hsB, Function.update_noteq hut, hut]
  refine ⟨hInv.keys_nodup, ?_, ?_, ?_, ?_, ?_, ?_, ?_, ?_, ?_, ?_, ?_, ?_⟩
  · intro k'
    rw [hq]
    by_cases hkk : k' = k
    · rw [if_pos hkk]
      have := hInv.queue_nodup k
      rw [hque] at this
      exact (List.nodup_cons.mp this).2
    · rw [if_neg hkk]
      exact hInv.queue_nodup k'
  · intro k' o ho hm
    rw [hl] at ho
    rw [hq] at hm
    by_cases hkk : k' = k
    · subst hkk
      rw [if_pos rfl] at ho hm
      injection ho with ho
      subst ho
      exact htnl hm
    · rw [if_neg hkk] at ho hm
      exact hInv.owner_notin k' o ho hm
  · intro k' u hu
    rw [hq] at hu
    rw [hst]
    by_cases hkk : k' = k
    · subst hkk
      rw [if_pos rfl] at hu
      by_cases hut : u = t
      · subst hut
        exact absurd hu htnl
      · rw [if_neg hut]
        exact hInv.queue_status k' u (by rw [hque]; exact List.mem_cons_of_mem t hu)
    · rw [if_neg hkk] at hu
      by_cases hut : u = t
      · subst hut
        have := hInv.queue_status k' u hu
        rw [hs] at this
        injection this with h
        exact absurd h.symm hkk
      · rw [if_neg hut]
        exact hInv.queue_status k' u hu
  · intro k' u hstu habu
    rw [hst] at hstu
    rw [habe] at habu
    rw [hq]
    by_cases hut : u = t
    · subst hut
      rw [if_pos rfl] at hstu
      cases hstu
    · rw [if_neg hut] at hstu
      have hqm := hInv.waiting_queue k' u hstu habu
      by_cases hkk : k' = k
      · subst hkk
        rw [if_pos rfl]
        rw [hque] at hqm
        rcases List.mem_cons.mp hqm with h | h
        · exact absurd h hut
        · exact h
      · rw [if_neg hkk]
        exact hqm
  · intro u k' hk'
    rw [hhd] at hk'
    rw [hl]
    by_cases hut : u = t
    · subst hut
      rw [if_pos rfl] at hk'
      rcases List.mem_append.mp hk' with hin | hin
      · have ho := hInv.held_owner u k' hin
        have hkk : k' ≠ k := fun h => hknotheld u (h ▸ hin)
        rw [if_neg hkk]
        exact ho
      · rw [List.mem_singleton] at hin
        subst hin
        rw [if_pos rfl]
    · rw [if_neg hut] at hk'
      have ho := hInv.held_owner u k' hk'
      have hkk : k' ≠ k := fun h => hknotheld u (h ▸ hk')
      rw [if_neg hkk]
      exact ho
  · intro u k' ho
    rw [hl] at ho
    rw [hhd]
    by_cases hkk : k' = k
    · subst hkk
      rw [if_pos rfl] at ho
      injection ho with ho
      subst ho
      rw [if_pos rfl]
      exact List.mem_append.mpr (Or.inr (List.mem_singleton_self k'))
    · rw [if_neg hkk] at ho
      have hm := hInv.owner_held u k' ho
      by_cases hut : u = t
      · subst hut
        rw [if_pos rfl]
        exact List.mem_append.mpr (Or.inl hm)
      · rw [if_neg hut]
        exact hm
  · intro u
    rw [hhd]
    by_cases hut : u = t
    · rw [if_pos hut]
      refine List.Nodup.append (hInv.held_nodup t) (List.nodup_singleton k) ?_
      intro a ha hb
      rw [List.mem_singleton] at hb
      subst hb
      exact hknotheld t ha
    · rw [if_neg hut]
      exact hInv.held_nodup u
  · intro u habu
    rw [habe] at habu
    by_cases hut : u = t
    · subst hut
      rw [hab] at habu
      cases habu
    · obtain ⟨k0, h0⟩ := hInv.aborted_waiting u habu
      exact ⟨k0, by rw [hst, if_neg hut]; exact h0⟩
  · intro u habu
    rw [habe] at habu
    rw [hhd]
    by_cases hut : u = t
    · subst hut
      rw [hab] at habu
      cases habu
    · rw [if_neg hut]
      exact hInv.aborted_held u habu
  · intro u k' habu
    rw [habe] at habu
    rw [hq]
    have hnmem := hInv.aborted_queue u k' habu
    by_cases hkk : k' = k
    · subst hkk
      rw [if_pos rfl]
      intro hm
      exact hnmem (by rw [hque]; exact List.mem_cons_of_mem t hm)
    · rw [if_neg hkk]
      exact hnmem
  · intro k' hk'
    rw [hl]
    have hkk : k' ≠ k := fun h => hk' (h ▸ hk)
    rw [if_neg hkk]
    exact hInv.unused_owner k' hk'
  · intro k' hk'
    rw [hq]
    have hkk : k' ≠ k := fun h => hk' (h ▸ hk)
    rw [if_neg hkk]
    exact hInv.unused_queue k' hk'

/-- One iteration of the wait loop preserves the invariant. -/
lemma inv_recheck (t : Nat) (k : String) (s : LMState) (hInv : Inv s)
    (hk : k ∈ s.keys) (hs : (s.txns t).status = TStatus.waiting k) :
    Inv (acquireRecheck t k s).1 := by
  simp only [acquireRecheck]
  by_cases hab : (s.txns t).aborted = true
  · rw [if_pos hab]
    exact inv_recheck_abort t k s hInv hs hab
  · rw [if_neg hab]
    by_cases hcond : (s.resources k).locked_by = none ∧
        (s.resources k).queue.head? = some t
    · rw [if_pos hcond]
      exact inv_recheck_grant t k s hInv hk hs (Bool.not_eq_true _ ▸ hab)
        hcond.1 hcond.2
    · rw [if_neg hcond]
      exact hInv

/-- Releasing an owned resource preserves the invariant. -/
lemma inv_release_owner (t : Nat) (k : String) (s : LMState) (hInv : Inv s)
    (hs : (s.txns t).status = TStatus.idle)
    (h1 : (s.resources k).locked_by = some t) :
    Inv { s with
      resources := Function.update s.resources k
        { s.resources k with locked_by := none },
      txns := Function.update s.txns t
        { s.txns t with held := (s.txns t).held.erase k } } := by
  have hna := hInv.idle_not_aborted hs
  set sR : LMState :=
    { s with
      resources := Function.update s.resources k
        { s.resources k with locked_by := none },
      txns := Function.update s.txns t
        { s.txns t with held := (s.txns t).held.erase k } } with hsR
  have hq : ∀ k', (sR.resources k').queue = (s.resources k').queue := by
    intro k'
    by_cases hkk : k' = k
    · subst hkk; simp [hsR, Function.update_same]
    · simp [hsR, Function.update_noteq hkk]
  have hl : ∀ k', (sR.resources k').locked_by =
      if k' = k then none else (s.resources k').locked_by := by
    intro k'
    by_cases hkk : k' = k
    · subst hkk; simp [hsR, Function.update_same]
    · simp [hsR, Function.update_noteq hkk, hkk]
  have hst : ∀ u, (sR.txns u).status = (s.txns u).status := by
    intro u
    by_cases hut : u = t
    · subst hut; simp [hsR, Function.update_same]
    · simp [hsR, Function.update_noteq hut]
  have habe : ∀ u, (sR.txns u).aborted = (s.txns u).aborted := by
    intro u
    by_cases hut : u = t
    · subst hut; simp [hsR, Function.update_same]
    · simp [hsR, Function.update_noteq hut]
  have hhd : ∀ u, (sR.txns u).held =
      if u = t then (s.txns t).held.erase k else (s.txns u).held := by
    intro u
    by_cases hut : u = t
    · subst hut; simp [hsR, Function.update_same]
    · simp [hsR, Function.update_noteq hut, hut]
  refine ⟨hInv.keys_nodup, ?_, ?_, ?_, ?_, ?_, ?_, ?_, ?_, ?_, ?_, ?_, ?_⟩
  · intro k'
    rw [hq]
    exact hInv.queue_nodup k'
  · intro k' o ho hm
    rw [hl] at ho
    rw [hq] at hm
    by_cases hkk : k' = k
    · rw [if_pos hkk] at ho
      cases ho
    · rw [if_neg hkk] at ho
      exact hInv.owner_notin k' o ho hm
  · intro k' u hu
    rw [hq] at hu
    rw [hst]
    exact hInv.queue_status k' u hu
  · intro k' u hstu habu
    rw [hst] at hstu
    rw [habe] at habu
    rw [hq]
    exact hInv.waiting_queue k' u hstu habu
  · intro u k' hk'
    rw [hhd] at hk'
    rw [hl]
    by_cases hut : u = t
    · subst hut
      rw [if_pos rfl] at hk'
      rw [List.Nodup.mem_erase_iff (hInv.held_nodup u)] at hk'
      rw [if_neg hk'.1]
      exact hInv.held_owner u k' hk'.2
    · rw [if_neg hut] at hk'
      have ho := hInv.held_owner u k' hk'
      have hkk : k' ≠ k := by
        intro h
        rw [h, h1] at ho
        injection ho with ho
        exact hut ho.symm
      rw [if_neg hkk]
      exact ho
  · intro u k' ho
    rw [hl] at ho
    rw [hhd]
    by_cases hkk : k' = k
    · rw [if_pos hkk] at ho
      cases ho
    · rw [if_neg hkk] at ho
      have hm := hInv.owner_held u k' ho
      by_cases hut : u = t
      · subst hut
        rw [if_pos rfl]
        exact (List.mem_erase_of_ne hkk).mpr hm
      · rw [if_neg hut]
        exact hm
  · intro u
    rw [hhd]
    by_cases hut : u = t
    · rw [if_pos hut]
      exact List.Nodup.erase k (hInv.held_nodup t)
    · rw [if_neg hut]
      exact hInv.held_nodup u
  · intro u habu
    rw [habe] at habu
    obtain ⟨k0, h0⟩ := hInv.aborted_waiting u habu
    exact ⟨k0, by rw [hst]; exact h0⟩
  · intro u habu
    rw [habe] at habu
    rw [hhd]
    by_cases hut : u = t
    · subst hut
      rw [hna] at habu
      cases habu
    · rw [if_neg hut]
      exact hInv.aborted_held u habu
  · intro u k' habu
    rw [habe] at habu
    rw [hq]
    exact hInv.aborted_queue u k' habu
  · intro k' hk'
    rw [hl]
    by_cases hkk : k' = k
    · rw [if_pos hkk]
    · rw [if_neg hkk]
      exact hInv.unused_owner k' hk'
  · intro k' hk'
    rw [hq]
    exact hInv.unused_queue k' hk'

/-- The operation `release` preserves the invariant. -/
lemma inv_release (t : Nat) (k : String) (s : LMState) (hInv : Inv s)
    (hs : (s.txns t).status = TStatus.idle) :
    Inv (release t k s).1 := by
  simp only [release]
  by_cases h1 : (s.resources k).locked_by = some t
  · rw [if_pos h1]
    exact inv_release_owner t k s hInv hs h1
  · rw [if_neg h1]
    exact hInv

/-- Every atomic step preserves the invariant. -/
lemma inv_step {s s' : LMState} (hInv : Inv s) (hstep : Step s s') : Inv s' := by
  cases hstep with
  | acquireStep t k ht hk hs => exact inv_acquire t k s hInv hk hs
  | recheckStep t k ht hk hs => exact inv_recheck t k s hInv hk hs
  | releaseStep t k ht hk hs => exact inv_release t k s hInv hs

/-- Every reachable state satisfies the invariant. -/
theorem inv_reachable {s : LMState} (h : Reachable s) : Inv s := by
  induction h with
  | init keys tids ts hkeys => exact inv_init keys tids ts hkeys
  | step _ hstep ih => exact inv_step ih hstep

/-- The cleanup `_abort` does not touch transactions other than the victim
(regardless of any state assumption: the held loop updates only the
victim, the queue loop updates only resources). -/
lemma abortQueueLoop_txns (v : Nat) :
    ∀ (l : List String) (s : LMState) (u : Nat),
      ((abortQueueLoop v l s).1.txns u) = s.txns u := by
  intro l
  induction l with
  | nil => intro s u; rfl
  | cons k rest ih =>
    intro s u
    rw [abortQueueLoop]
    by_cases hq : v ∈ (s.resources k).queue
    · rw [if_pos hq]
      exact ih _ u
    · rw [if_neg hq]
      exact ih s u

/-- The cleanup `_abort` leaves every transaction other than the victim unchanged. -/
lemma abortTxn_txns_other (v u : Nat) (hu : u ≠ v) (s : LMState) :
    ((abortTxn v s).1.txns u) = s.txns u := by
  rw [abortTxn]
  obtain ⟨_, _, _, _, _, _, _, htxo, _⟩ :=
    abortHeldLoop_char v
      (((Function.update s.txns v { s.txns v with aborted := true }) v).held)
      { s with
        abort_count := s.abort_count + 1,
        txns := Function.update s.txns v { s.txns v with aborted := true } }
  rw [abortQueueLoop_txns, htxo u hu]
  simp [Function.update_noteq hu]

/-! ### Concrete scenario states used by witnesses -/

/-- Resource key of the first shared item of the simulation. -/
def keyX : String := "X"

/-- Resource key of the second shared item of the simulation. -/
def keyY : String := "Y"

/-- One resource `X`, three transactions `1 < 2 < 3` by timestamp. -/
def exInit : LMState := initState [keyX] [1, 2, 3] (fun i => i)

/-- Transaction 1 has taken `X` (free fast path). -/
def exS1 : LMState := acquire 1 keyX exInit

/-- Transaction 2 asked for `X` and was enqueued (detection found no
cycle). -/
def exS2 : LMState := acquire 2 keyX exS1

/-- Transaction 1 released `X`: the lock is free but 2 still waits. -/
def exS3 : LMState := (release 1 keyX exS2).1

lemma reachable_exInit : Reachable exInit :=
  Reachable.init [keyX] [1, 2, 3] (fun i => i) (by decide)

lemma reachable_exS1 : Reachable exS1 :=
  reachable_exInit.step
    (Step.acquireStep exInit 1 keyX (by decide) (by decide) (by decide))

lemma reachable_exS2 : Reachable exS2 :=
  reachable_exS1.step
    (Step.acquireStep exS1 2 keyX (by decide) (by decide) (by decide))

lemma reachable_exS3 : Reachable exS3 :=
  reachable_exS2.step
    (Step.releaseStep exS2 1 keyX (by decide) (by decide) (by decide))

lemma inv_exS2 : Inv exS2 := inv_reachable reachable_exS2

/-- A classic two-resource deadlock: 1 holds `X` waiting for `Y`,
2 holds `Y` waiting for `X`. -/
def exDead : LMState :=
  { keys := [keyX, keyY]
    tids := [1, 2]
    resources := fun k =>
      if k = keyX then { locked_by := some 1, queue := [2] }
      else if k = keyY then { locked_by := some 2, queue := [1] }
      else { locked_by := none, queue := [] }
    txns := fun i =>
      { ts := i
        held := if i = 1 then [keyX] else if i = 2 then [keyY] else []
        aborted := false
        status :=
          if i = 1 then TStatus.waiting keyY
          else if i = 2 then TStatus.waiting keyX else TStatus.idle }
    deadlock_count := 0
    abort_count := 0
    wait_times := 0 }

/-- Resource `X` free with waiter 5 at the head: the grant branch fires. -/
def exGrant : LMState :=
  { keys := [keyX]
    tids := [5]
    resources := fun _ => { locked_by := none, queue := [5] }
    txns := fun i =>
      { ts := i, held := [], aborted := false, status := TStatus.waiting keyX }
    deadlock_count := 0
    abort_count := 0
    wait_times := 0 }

/-- Waiter 7 whose abort flag was set by the detector. -/
def exFlag : LMState :=
  { keys := [keyX]
    tids := [7]
    resources := fun _ => { locked_by := none, queue := [] }
    txns := fun i =>
      { ts := i, held := [], aborted := true, status := TStatus.waiting keyX }
    deadlock_count := 0
    abort_count := 0
    wait_times := 0 }

/-! ### Claim theorems -/

/-- C1: in every reachable state of the lock manager, every resource's
`locked_by` is absent or exactly one transaction (it has type
`Option Nat`), its wait queue contains each transaction at most once,
and no transaction simultaneously owns the resource and sits in its
wait queue.  Since `Reachable` is inductively closed under the atomic
steps — `acquire` (which runs detection and abort synchronously),
the wait-loop re-check, and `release` — every core operation preserves
this invariant. -/
theorem c1_resource_invariant (s : LMState) (h : Reachable s) :
    ∀ k, (s.resources k).queue.Nodup ∧
      ∀ o, (s.resources k).locked_by = some o → o ∉ (s.resources k).queue := by
  have hInv := inv_reachable h
  intro k
  exact ⟨hInv.queue_nodup k, fun o ho => hInv.owner_notin k o ho⟩

/-- Witness for C1 at the concrete reachable state `exS2`. -/
theorem c1_resource_invariant_witness :
    (exS2.resources keyX).queue.Nodup ∧
      (exS2.resources keyX).locked_by = some 1 ∧
      1 ∉ (exS2.resources keyX).queue :=
  ⟨(c1_resource_invariant exS2 reachable_exS2 keyX).1, by decide,
    (c1_resource_invariant exS2 reachable_exS2 keyX).2 1 (by decide)⟩

/-- C2: whenever a detection pass reports a cycle and a victim, the
victim is a member of the reported cycle and its `ts` is maximal among
the cycle's members (`max(cycle, key=lambda tr: tr.ts)`). -/
theorem c2_victim_in_cycle_max_ts (s : LMState) (cyc : List Nat) (v : Nat)
    (h : (detect_and_resolve s).2 = some (cyc, v)) :
    v ∈ cyc ∧ ∀ u ∈ cyc, (s.txns u).ts ≤ (s.txns v).ts := by
  rcases detect_and_resolve_char s with hc | ⟨cyc', t, vis₀, vis₁, hdfs, hne, heq⟩
  · rw [hc] at h
    cases h
  · rw [heq] at h
    have h' : some (cyc', pyMax (fun u => (s.txns u).ts) cyc') = some (cyc, v) := h
    injection h' with h'
    injection h' with h1 h2
    subst h1
    subst h2
    exact ⟨pyMax_mem _ _ hne,
      fun u hu => pyMax_ge (fun w => (s.txns w).ts) cyc' u hu⟩

/-- Witness for C2 on the concrete deadlocked state `exDead`: the pass
reports cycle `[2, 1]` and victim `2`, which is in the cycle and has
the larger timestamp. -/
theorem c2_victim_in_cycle_max_ts_witness :
    2 ∈ [2, 1] ∧ (exDead.txns 1).ts ≤ (exDead.txns 2).ts :=
  ⟨(c2_victim_in_cycle_max_ts exDead [2, 1] 2 (by decide)).1,
    (c2_victim_in_cycle_max_ts exDead [2, 1] 2 (by decide)).2 1 (by decide)⟩

/-- C3 counterexample: FIFO handover can be violated by a late
arrival.  In the reachable state `exS3`, resource `X` is free while
transaction 2 is already in its wait queue; the legal step in which
idle transaction 3 calls `acquire` gives `X` to 3 at once (the free
fast path never consults the queue), so the later arrival 3 obtains
ownership before the earlier queued waiter 2.  This refutes the claim
that in no reachable execution a later arrival obtains ownership
before a transaction already earlier in the wait queue. -/
theorem c3_fifo_counterexample :
    Reachable exS3 ∧
    (exS3.resources keyX).locked_by = none ∧
    (exS3.resources keyX).queue = [2] ∧
    (exS3.txns 2).status = TStatus.waiting keyX ∧
    (exS3.txns 2).aborted = false ∧
    (exS3.txns 3).status = TStatus.idle ∧
    Step exS3 (acquire 3 keyX exS3) ∧
    ((acquire 3 keyX exS3).resources keyX).locked_by = some 3 ∧
    2 ∈ ((acquire 3 keyX exS3).resources keyX).queue :=
  ⟨reachable_exS3, by decide, by decide, by decide, by decide, by decide,
    Step.acquireStep exS3 3 keyX (by decide) (by decide) (by decide),
    by decide, by decide⟩

/-- C3 amended: FIFO holds among registered waiters — the wait-loop
grant branch fires only when the caller heads the resource's wait
queue, and it pops exactly the head — but a transaction calling
`acquire` while the resource is free acquires immediately even when
the wait queue is non-empty, so a later arrival can overtake queued
waiters on the fast path. -/
theorem c3_fifo_among_waiters (t : Nat) (k : String) (s : LMState)
    (h : (acquireRecheck t k s).2 = WaitOutcome.granted) :
    (s.resources k).locked_by = none ∧
    (s.resources k).queue.head? = some t ∧
    ((acquireRecheck t k s).1.resources k).locked_by = some t ∧
    ((acquireRecheck t k s).1.resources k).queue = (s.resources k).queue.tail := by
  by_cases hab : (s.txns t).aborted = true
  · rw [acquireRecheck, if_pos hab] at h
    cases h
  · rw [acquireRecheck, if_neg hab] at h
    by_cases hcond : (s.resources k).locked_by = none ∧
        (s.resources k).queue.head? = some t
    · refine ⟨hcond.1, hcond.2, ?_, ?_⟩
      · rw [acquireRecheck, if_neg hab, if_pos hcond]
        simp [Function.update_same]
      · rw [acquireRecheck, if_neg hab, if_pos hcond]
        simp [Function.update_same]
    · rw [if_neg hcond] at h
      cases h

/-- Witness for the amended C3 on `exGrant`: the grant branch fires
for waiter 5 exactly at the queue head. -/
theorem c3_fifo_among_waiters_witness :
    (exGrant.resources keyX).queue.head? = some 5 ∧
    ((acquireRecheck 5 keyX exGrant).1.resources keyX).locked_by = some 5 :=
  ⟨(c3_fifo_among_waiters 5 keyX exGrant (by decide)).2.1,
    (c3_fifo_among_waiters 5 keyX exGrant (by decide)).2.2.1⟩

/-- C4: after `_abort` of a victim in any state satisfying the lock
manager invariant: the victim's abort flag is set; the victim owns
nothing (no resource's `locked_by` references it, and its `held` list
is empty); it is absent from every wait queue; and every resource
whose state was changed is among the notified (woken) resources. -/
theorem c4_abort_cleanup (v : Nat) (s : LMState) (hInv : Inv s) :
    ((abortTxn v s).1.txns v).aborted = true ∧
    ((abortTxn v s).1.txns v).held = [] ∧
    (∀ k, ((abortTxn v s).1.resources k).locked_by ≠ some v) ∧
    (∀ k, v ∉ ((abortTxn v s).1.resources k).queue) ∧
    (∀ k, (abortTxn v s).1.resources k ≠ s.resources k → k ∈ (abortTxn v s).2) := by
  obtain ⟨hkeys, htids, hdc, hac, hwt, htxo, htxv, hres, hnot⟩ :=
    abortTxn_char v s hInv.keys_nodup
  refine ⟨?_, ?_, ?_, ?_, ?_⟩
  · rw [htxv]
  · exact abortTxn_held_empty v s hInv.keys_nodup (hInv.held_nodup v)
  · intro k hko
    rw [hres k] at hko
    simp only [] at hko
    by_cases hh : k ∈ (s.txns v).held
    · rw [if_pos hh] at hko
      cases hko
    · rw [if_neg hh] at hko
      exact hh (hInv.owner_held v k hko)
  · intro k
    rw [hres k]
    simp only []
    by_cases hkk : k ∈ s.keys
    · rw [if_pos hkk]
      intro hm
      rw [List.Nodup.mem_erase_iff (hInv.queue_nodup k)] at hm
      exact hm.1 rfl
    · rw [if_neg hkk, hInv.unused_queue k hkk]
      exact List.not_mem_nil v
  · intro k hne
    rw [hnot k]
    by_contra hcon
    push_neg at hcon
    apply hne
    rw [hres k]
    have hh : k ∉ (s.txns v).held := fun h => (hcon.1 h).elim
    rw [if_neg hh]
    by_cases hkk : k ∈ s.keys
    · rw [if_pos hkk, List.erase_of_not_mem (hcon.2 hkk)]
    · rw [if_neg hkk]

/-- Witness for C4 at the concrete invariant state `exS2`, aborting
the queued waiter 2. -/
theorem c4_abort_cleanup_witness :
    ((abortTxn 2 exS2).1.txns 2).aborted = true ∧
    ((abortTxn 2 exS2).1.txns 2).held = [] ∧
    2 ∉ ((abortTxn 2 exS2).1.resources keyX).queue :=
  ⟨(c4_abort_cleanup 2 exS2 inv_exS2).1,
    (c4_abort_cleanup 2 exS2 inv_exS2).2.1,
    (c4_abort_cleanup 2 exS2 inv_exS2).2.2.2.1 keyX⟩

/-- C5: one iteration of `acquire`'s wait loop fails with the
`Aborted` outcome exactly when the caller's abort flag is set, and in
that case the flag is cleared before the failure propagates.  In this
embedding `acquire`'s entry section and `release` are total functions
into states with no failure outcome, and the wait loop has no timeout
branch: the abort flag is the only failure source. -/
theorem c5_abort_failure_iff (t : Nat) (k : String) (s : LMState) :
    ((acquireRecheck t k s).2 = WaitOutcome.aborted ↔
      (s.txns t).aborted = true) ∧
    ((s.txns t).aborted = true →
      ((acquireRecheck t k s).1.txns t).aborted = false) := by
  by_cases hab : (s.txns t).aborted = true
  · constructor
    · exact ⟨fun _ => hab, fun _ => by rw [acquireRecheck, if_pos hab]⟩
    · intro _
      rw [acquireRecheck, if_pos hab]
      simp [Function.update_same]
  · constructor
    · constructor
      · intro h
        rw [acquireRecheck, if_neg hab] at h
        by_cases hcond : (s.resources k).locked_by = none ∧
            (s.resources k).queue.head? = some t
        · rw [if_pos hcond] at h
          cases h
        · rw [if_neg hcond] at h
          cases h
      · intro h
        exact absurd h hab
    · intro h
      exact absurd h hab

/-- Witness for C5 on `exFlag` (flag set): the iteration fails with
`Aborted` and clears the flag. -/
theorem c5_abort_failure_iff_witness :
    (acquireRecheck 7 keyX exFlag).2 = WaitOutcome.aborted ∧
    ((acquireRecheck 7 keyX exFlag).1.txns 7).aborted = false :=
  ⟨(c5_abort_failure_iff 7 keyX exFlag).1.mpr (by decide),
    (c5_abort_failure_iff 7 keyX exFlag).2 (by decide)⟩

/-- C6: a detection pass aborts at most one victim.  If no cycle is
reported the state is completely unchanged; if a cycle is reported the
pass's result is exactly one `_abort` of the selected victim applied
to the state with `deadlock_count` bumped (the loop returns
immediately after the first discovered cycle), and the only
transaction whose abort flag the pass can newly set is that victim. -/
theorem c6_at_most_one_victim (s : LMState) :
    ((detect_and_resolve s).2 = none → (detect_and_resolve s).1 = s) ∧
    (∀ cyc v, (detect_and_resolve s).2 = some (cyc, v) →
      (detect_and_resolve s).1 =
        (abortTxn v { s with deadlock_count := s.deadlock_count + 1 }).1 ∧
      ∀ u, ((detect_and_resolve s).1.txns u).aborted = true →
        (s.txns u).aborted = true ∨ u = v) := by
  rcases detect_and_resolve_char s with hc | ⟨cyc', t, vis₀, vis₁, hdfs, hne, heq⟩
  · constructor
    · intro _
      rw [hc]
    · intro cyc v h
      rw [hc] at h
      cases h
  · constructor
    · intro h
      rw [heq] at h
      cases h
    · intro cyc v h
      rw [heq] at h
      have h' : some (cyc', pyMax (fun u => (s.txns u).ts) cyc') = some (cyc, v) := h
      injection h' with h'
      injection h' with h1 h2
      subst h1
      subst h2
      refine ⟨by rw [heq], ?_⟩
      intro u hu
      rw [heq] at hu
      by_cases huv : u = pyMax (fun w => (s.txns w).ts) cyc'
      · exact Or.inr huv
      · left
        have htx := abortTxn_txns_other _ u huv
          { s with deadlock_count := s.deadlock_count + 1 }
        have hu' : ((abortTxn (pyMax (fun w => (s.txns w).ts) cyc')
            { s with deadlock_count := s.deadlock_count + 1 }).1.txns u).aborted = true := hu
        rw [htx] at hu'
        exact hu'

/-- Witness for C6 on the deadlocked state `exDead`: the pass reports
`([2, 1], 2)`, its result is the single abort of victim 2, and
transaction 1's flag stays clear. -/
theorem c6_at_most_one_victim_witness :
    (detect_and_resolve exDead).1 =
      (abortTxn 2 { exDead with deadlock_count := exDead.deadlock_count + 1 }).1 ∧
    ((detect_and_resolve exDead).1.txns 1).aborted = false :=
  ⟨((c6_at_most_one_victim exDead).2 [2, 1] 2 (by decide)).1, by decide⟩

/-- C7: the wait-for graph searched by the detector has an edge from
`w` to `o` exactly when some resource is owned by `o` and has `w` in
its (non-empty) wait queue; and whenever the DFS (which threads a
visited set and the current path) reports a cycle, the report is
precisely the path at the moment a node on the current path was
re-reached: a non-empty chain in which every node is adjacent to its
successor on the path, closed by the revisited node, which lies both
in the report and in the adjacency of the report's head. -/
theorem c7_graph_and_cycle_report (s : LMState) :
    (∀ w o, o ∈ buildAdj s w ↔
      ∃ k, k ∈ s.keys ∧ (s.resources k).locked_by = some o ∧
        w ∈ (s.resources k).queue) ∧
    (∀ fuel v visited c vis',
      dfsAux (buildAdj s) fuel (Sum.inl v) visited [] = (some c, vis') →
      ∃ h tl, c = h :: tl ∧
        List.Chain' (fun a b => a ∈ buildAdj s b) c ∧
        ∃ nb, nb ∈ c ∧ nb ∈ buildAdj s h) := by
  constructor
  · intro w o
    exact buildAdj_mem s w o
  · intro fuel v visited c vis' heq
    exact dfsAux_some_char (buildAdj s) fuel (Sum.inl v) visited [] c vis'
      ⟨List.chain'_nil, Or.inl rfl⟩ heq

/-- Witness for C7 on `exDead`: the edge `2 → 1` exists because 1 owns
`X` with 2 queued, and the concrete DFS run from node 1 reports the
path `[2, 1]` as the cycle. -/
theorem c7_graph_and_cycle_report_witness :
    (1 ∈ buildAdj exDead 2) ∧
    (∃ h tl, ([2, 1] : List Nat) = h :: tl ∧
      List.Chain' (fun a b => a ∈ buildAdj exDead b) [2, 1] ∧
      ∃ nb, nb ∈ ([2, 1] : List Nat) ∧ nb ∈ buildAdj exDead h) :=
  ⟨(c7_graph_and_cycle_report exDead).1 2 1 |>.mpr
      ⟨keyX, by decide, by decide, by decide⟩,
    (c7_graph_and_cycle_report exDead).2 5 1 [] [2, 1] [2, 1] (by decide)⟩

/-- C8: if the caller already owns the resource, `acquire` returns at
once and the entire state — ownership, held sets, every wait queue,
and all metric counters — is unchanged; in particular the caller is
never enqueued on a resource it owns, so no wait-for self-loop is
created. -/
theorem c8_reacquire_noop (t : Nat) (k : String) (s : LMState)
    (h : (s.resources k).locked_by = some t) :
    acquire t k s = s := by
  simp only [acquire]
  rw [if_neg (by rw [h]; simp), if_pos h]

/-- Witness for C8: transaction 1 re-acquiring `X` in `exS1` changes
nothing. -/
theorem c8_reacquire_noop_witness : acquire 1 keyX exS1 = exS1 :=
  c8_reacquire_noop 1 keyX exS1 (by decide)

/-- C9: `release` by a non-owner is a complete no-op — the state is
returned unchanged and no resource is notified — and it raises no
error (it is a total function). -/
theorem c9_release_nonowner_noop (t : Nat) (k : String) (s : LMState)
    (h : (s.resources k).locked_by ≠ some t) :
    release t k s = (s, []) := by
  simp only [release]
  rw [if_neg h]

/-- Witness for C9: transaction 2 releasing `X` (owned by 1) in `exS1`
changes nothing and notifies nobody. -/
theorem c9_release_nonowner_noop_witness : release 2 keyX exS1 = (exS1, []) :=
  c9_release_nonowner_noop 2 keyX exS1 (by decide)

/-- C10: in every reachable state, a transaction blocked in the wait
loop whose abort flag is clear is still a member of that resource's
wait queue — the only removal of a waiter by another party is the
abort path, which sets the flag first — hence the queue is non-empty
at the re-check and the head access `res.queue[0]` is in bounds. -/
theorem c10_waiting_in_queue (s : LMState) (h : Reachable s) (t : Nat) (k : String)
    (hw : (s.txns t).status = TStatus.waiting k)
    (hab : (s.txns t).aborted = false) :
    t ∈ (s.resources k).queue ∧ (s.resources k).queue ≠ [] := by
  have hInv := inv_reachable h
  have hm := hInv.waiting_queue k t hw hab
  refine ⟨hm, ?_⟩
  intro hnil
  rw [hnil] at hm
  cases hm

/-- Witness for C10 at `exS2`: waiter 2 with a clear flag is in `X`'s
queue, which is non-empty. -/
theorem c10_waiting_in_queue_witness :
    2 ∈ (exS2.resources keyX).queue ∧ (exS2.resources keyX).queue ≠ [] :=
  c10_waiting_in_queue exS2 reachable_exS2 2 keyX (by decide) (by decide)

end DeadlockSim
